import Mathlib

/-!
# Line-buffered writer (`linewriter.go`)

A shallow embedding of the Go package `linewriter` and proofs about its flush policy.

* The internal `bytes.Buffer` is the list of its unread bytes.
* Go `int` values are `Int`; the delimiter `'\n'` is the byte `10`.
* The sink `out io.Writer` is a function giving, for the calls already made on it and the
  slice now offered, the count and the error it reports.  Every call made on the sink is
  recorded in `calls`, so that the number, order and arguments of the sink calls can be stated.
* `flushLines` contains a loop that need not terminate, so the loops take a fuel argument
  (one unit per iteration) and return `none` when it runs out.
* The mutex is not modelled: the operations are embedded as sequential state transformers.
  `Write` and `WriteString` hold `mu.Lock()` for the whole call and `Len` holds `mu.RLock()`;
  `Flush` takes no lock and `FlushAll` only the one inside `Len`.  `FlushAllOffer` and
  `FlushAllRemove` split `FlushAll` at its sink call, to describe a run in which another caller
  gets in between.
* A Go string is `GoString`, an arbitrary sequence of bytes (it need not be valid UTF-8);
  `fmt.Sprintf` is a parameter.
-/

namespace linewriter

/-- A byte of a Go `[]byte`. -/
abbrev Byte := UInt8

/-- The line delimiter `'\n'`. -/
abbrev NL : Byte := 10

/-- One call `out.Write(data)` together with what the sink reported for it. -/
structure Call (ε : Type) where
  /-- The slice offered to the sink. -/
  data : List Byte
  /-- The count reported by the sink. -/
  n : Int
  /-- The error reported by the sink (`none` is Go `nil`). -/
  err : Option ε

/-- An `io.Writer`: from the calls made on it so far and the slice offered, the reported
`(n, err)`. -/
abbrev Writer (ε : Type) := List (Call ε) → List Byte → Int × Option ε

/-- The struct `LineWriter`; `calls` records the calls made on `out` so far. -/
structure LineWriter (ε : Type) where
  multiline : Bool
  buf : List Byte
  out : Writer ε
  calls : List (Call ε)

/-- The result `(int, error)` of an operation together with the state it leaves. -/
abbrev Ret (ε : Type) := (Int × Option ε) × LineWriter ε

/-- Go `New(multiline, w)`: an empty buffer; the sink has not been called. -/
def New {ε : Type} (multiline : Bool) (w : Writer ε) : LineWriter ε :=
  { multiline := multiline, buf := [], out := w, calls := [] }

/-- Go slice expression `b[lo:hi]`. -/
def slice (b : List Byte) (lo hi : Int) : List Byte :=
  (b.take hi.toNat).drop lo.toNat

/-- Go slice expression `b[lo:]`. -/
def sliceFrom (b : List Byte) (lo : Int) : List Byte :=
  b.drop lo.toNat

/-- Go `bytes.IndexByte(b, c)`: the index of the first `c` in `b`, or `-1`. -/
def IndexByte : List Byte → Byte → Int
  | [], _ => -1
  | x :: xs, c =>
    if x = c then 0
    else if IndexByte xs c = -1 then -1
    else IndexByte xs c + 1

/-- Go `buf.Next(n)`: the buffer with its first `n` unread bytes consumed. -/
def bufNext (buf : List Byte) (n : Int) : List Byte :=
  buf.drop n.toNat

/-- Go `(*LineWriter).Len`. -/
def Len {ε : Type} (w : LineWriter ε) : Int :=
  w.buf.length

/-- The call record of offering `c` to `out` after the calls `calls`. -/
def mkCall {ε : Type} (out : Writer ε) (calls : List (Call ε)) (c : List Byte) : Call ε :=
  { data := c, n := (out calls c).1, err := (out calls c).2 }

/-- Go `(*LineWriter).FlushAll`. -/
def FlushAll {ε : Type} (w : LineWriter ε) : Ret ε :=
  let n := Len w
  if n = 0 then ((0, none), w)
  else
    let b := w.buf
    let n := (w.out w.calls b).1
    let err := (w.out w.calls b).2
    let w1 := { w with calls := w.calls ++ [mkCall w.out w.calls b] }
    if n > 0 then
      let m : Int := b.length
      let n := if n > m then m else n
      ((n, err), { w1 with buf := bufNext w1.buf n })
    else ((0, err), w1)

/-- The `for n != -1` loop of `flushLines` over the loop variables `tail` and `n`; the result
is `(tail, err, calls)` at loop exit, or `none` when the fuel is used up. -/
def flushLinesLoop {ε : Type} (out : Writer ε) (b : List Byte) :
    Nat → Int → Int → List (Call ε) → Option (Int × Option ε × List (Call ε))
  | 0, tail, n, calls => if n = -1 then some (tail, none, calls) else none
  | fuel + 1, tail, n, calls =>
    if n = -1 then some (tail, none, calls)
    else
      let n1 := n + 1
      let c := slice b tail (tail + n1)
      let nw := (out calls c).1
      let werr := (out calls c).2
      let calls1 := calls ++ [mkCall out calls c]
      let m : Int := c.length
      let tail1 := if nw > 0 then tail + (if nw > m then m else nw) else tail
      match werr with
      | some e => some (tail1, some e, calls1)
      | none => flushLinesLoop out b fuel tail1 (IndexByte (sliceFrom b tail1) NL) calls1

/-- Go `(*LineWriter).flushLines`. -/
def flushLines {ε : Type} (fuel : Nat) (w : LineWriter ε) : Option (Ret ε) :=
  let b := w.buf
  match flushLinesLoop w.out b fuel 0 (IndexByte b NL) w.calls with
  | none => none
  | some (tail, err, calls) =>
    let w1 := { w with calls := calls }
    some ((tail, err), if tail > 0 then { w1 with buf := bufNext w1.buf tail } else w1)

/-- The `for n != -1` loop of `flushMultiline`; the result is `tail` at loop exit. -/
def flushMultilineLoop (b : List Byte) : Nat → Int → Int → Option Int
  | 0, tail, n => if n = -1 then some tail else none
  | fuel + 1, tail, n =>
    if n = -1 then some tail
    else
      let tail1 := tail + (n + 1)
      flushMultilineLoop b fuel tail1 (IndexByte (sliceFrom b tail1) NL)

/-- Go `(*LineWriter).flushMultiline`. -/
def flushMultiline {ε : Type} (fuel : Nat) (w : LineWriter ε) : Option (Ret ε) :=
  let b := w.buf
  match flushMultilineLoop b fuel 0 (IndexByte b NL) with
  | none => none
  | some tail =>
    if tail = 0 then some ((0, none), w)
    else
      let c := slice b 0 tail
      let nw := (w.out w.calls c).1
      let err := (w.out w.calls c).2
      let w1 := { w with calls := w.calls ++ [mkCall w.out w.calls c] }
      if nw > 0 then
        let m : Int := c.length
        let nw := if nw > m then m else nw
        some ((nw, err), { w1 with buf := bufNext w1.buf nw })
      else some ((0, err), w1)

/-- Go `(*LineWriter).Flush`. -/
def Flush {ε : Type} (fuel : Nat) (w : LineWriter ε) : Option (Ret ε) :=
  if w.multiline then flushMultiline fuel w else flushLines fuel w

/-- Go `buf.Write(p)`: appends `p`, returns `len(p)`. -/
def bufWrite (buf p : List Byte) : Int × List Byte :=
  (p.length, buf ++ p)

/-- Go `(*LineWriter).Write`. -/
def Write {ε : Type} (fuel : Nat) (w : LineWriter ε) (b : List Byte) : Option (Ret ε) :=
  let n := (bufWrite w.buf b).1
  let w1 := { w with buf := (bufWrite w.buf b).2 }
  match Flush fuel w1 with
  | none => none
  | some r => some ((n, r.1.2), r.2)

/-! ### Vocabulary of the specification -/

/-- The complete lines of `b`: each runs through a delimiter inclusive; the bytes after the
last delimiter are not part of any. -/
def completeLines : List Byte → List (List Byte)
  | [] => []
  | x :: xs =>
    if x = NL then [x] :: completeLines xs
    else
      match completeLines xs with
      | [] => []
      | l :: ls => (x :: l) :: ls

/-- The offset just past the last delimiter of `b` (`0` when there is none). -/
def lastLineEnd : List Byte → Nat
  | [] => 0
  | x :: xs =>
    if lastLineEnd xs > 0 then lastLineEnd xs + 1
    else if x = NL then 1
    else 0

/-- The count a call is credited with: the reported count clamped to the bytes offered, and
nothing when the report is not positive. -/
def accepted {ε : Type} (c : Call ε) : Int :=
  if c.n > 0 then (if c.n > (c.data.length : Int) then (c.data.length : Int) else c.n) else 0

/-- The bytes of a call the sink is credited with: the first `min(reported, offered)`. -/
def acceptedBytes {ε : Type} (c : Call ε) : List Byte :=
  c.data.take (accepted c).toNat

/-- A sink that accepts all bytes offered and reports no error. -/
def acceptAll {ε : Type} : Writer ε :=
  fun _ c => (c.length, none)

/-- The test sink of `linewriter_test.go` that reports `(n, err)` whatever it is offered. -/
def constWriter {ε : Type} (n : Int) (err : Option ε) : Writer ε :=
  fun _ _ => (n, err)

/-- A sink that reports `(0, nil)` on its first call and accepts everything afterwards. -/
def stallOnce {ε : Type} : Writer ε :=
  fun calls c => if calls.length = 0 then (0, none) else (c.length, none)

/-! ### Fixtures of `linewriter_test.go` -/

/-- The buffer content `"foobar\nbaz\n"`. -/
def foobarbaz : List Byte := [102, 111, 111, 98, 97, 114, 10, 98, 97, 122, 10]

/-- The buffer content `"bar\nbaz"`. -/
def barbaz : List Byte := [98, 97, 114, 10, 98, 97, 122]

/-- A per-line writer holding `"foobar\nbaz\n"` over a sink that accepts everything. -/
def perLineAccepting : LineWriter String :=
  { multiline := false, buf := foobarbaz, out := acceptAll, calls := [] }

/-- A batched writer holding `"bar\nbaz"` over a sink that accepts everything. -/
def batchedAccepting : LineWriter String :=
  { multiline := true, buf := barbaz, out := acceptAll, calls := [] }

/-- The buffer content `"qux\nquux\n"`. -/
def quxquux : List Byte := [113, 117, 120, 10, 113, 117, 117, 120, 10]

/-- The error value `fmt.Errorf("error of writer")` of the tests. -/
def errWriter : String := "error of writer"

/-- A writer holding `"qux\nquux\n"` over the test sink reporting `(n, err)`. -/
def constSinkWriter (multiline : Bool) (n : Int) (err : Option String) : LineWriter String :=
  { multiline := multiline, buf := quxquux, out := constWriter n err, calls := [] }

/-- A sink that accepts at most two bytes of each slice and reports no error. -/
def twoBytes {ε : Type} : Writer ε :=
  fun _ c => (min 2 (c.length : Int), none)

/-- A per-line writer holding `"bar\nbaz"` over the sink `twoBytes`. -/
def perLineTwoBytes : LineWriter String :=
  { multiline := false, buf := barbaz, out := twoBytes, calls := [] }

/-- A per-line writer holding `"bar\nbaz"` over the sink `stallOnce`. -/
def perLineStallOnce : LineWriter String :=
  { multiline := false, buf := barbaz, out := stallOnce, calls := [] }

/-- A sink that accepts its first slice in full and reports `(2, error of writer)` on every
later call. -/
def failSecond : Writer String :=
  fun calls c => if calls.length = 0 then (c.length, none) else (2, some errWriter)

/-- A per-line writer holding `"foobar\nbaz\n"` over the sink `failSecond`. -/
def perLineFailSecond : LineWriter String :=
  { multiline := false, buf := foobarbaz, out := failSecond, calls := [] }

/-- The buffer content `"baz"`. -/
def baz : List Byte := [98, 97, 122]

/-- The input `"qux\n"`. -/
def qux : List Byte := [113, 117, 120, 10]

/-- A per-line writer holding `"baz"` over the test sink reporting `(0, error of writer)`. -/
def bazZeroErr : LineWriter String :=
  { multiline := false, buf := baz, out := constWriter 0 (some errWriter), calls := [] }

/-! ### The remaining operations -/

/-- A Go `string`: any finite sequence of bytes, valid UTF-8 or not. -/
structure GoString where
  /-- The bytes of the string, in order. -/
  bytes : List Byte

/-- Go `len(s)` for a string: its number of bytes. -/
def GoString.len (s : GoString) : Int :=
  s.bytes.length

/-- The bytes of a Go string, `[]byte(s)`. -/
def stringBytes (s : GoString) : List Byte :=
  s.bytes

/-- Go `buf.WriteString(s)`: appends the bytes of `s`, returns `len(s)`. -/
def bufWriteString (buf : List Byte) (s : GoString) : Int × List Byte :=
  (s.len, buf ++ stringBytes s)

/-- Go `(*LineWriter).WriteString`. -/
def WriteString {ε : Type} (fuel : Nat) (w : LineWriter ε) (s : GoString) : Option (Ret ε) :=
  let n := (bufWriteString w.buf s).1
  let w1 := { w with buf := (bufWriteString w.buf s).2 }
  match Flush fuel w1 with
  | none => none
  | some r => some ((n, r.1.2), r.2)

/-- Go `(*LineWriter).Printf`; the argument `sprintf` stands for `fmt.Sprintf`. -/
def Printf {ε α : Type} (sprintf : GoString → List α → GoString) (fuel : Nat)
    (w : LineWriter ε) (s : GoString) (a : List α) : Option (Ret ε) :=
  WriteString fuel w (sprintf s a)

/-- The Go string `"\xff\xfe\n"`, which is not valid UTF-8. -/
def notUtf8 : GoString :=
  { bytes := [255, 254, 10] }

/-- A sequence of `Write` calls, each made on the state the previous one left; the result lists
what each call returned. -/
def writeEach {ε : Type} (fuel : Nat) :
    LineWriter ε → List (List Byte) → Option (List (Int × Option ε) × LineWriter ε)
  | w, [] => some ([], w)
  | w, d :: ds =>
    match Write fuel w d with
    | none => none
    | some r =>
      match writeEach fuel r.2 ds with
      | none => none
      | some rs => some (r.1 :: rs.1, rs.2)

/-- The first part of `FlushAll`, through the sink call `w.out.Write(b)`: `none` when the
buffer is empty, otherwise the slice offered with what the sink reported for it. -/
def FlushAllOffer {ε : Type} (w : LineWriter ε) :
    Option (List Byte × Int × Option ε) × LineWriter ε :=
  let n := Len w
  if n = 0 then (none, w)
  else
    let b := w.buf
    (some (b, (w.out w.calls b).1, (w.out w.calls b).2),
      { w with calls := w.calls ++ [mkCall w.out w.calls b] })

/-- The second part of `FlushAll`, after the sink call: the clamp and `w.buf.Next(n)`, applied
to the buffer as it is at that moment. -/
def FlushAllRemove {ε : Type} (pending : Option (List Byte × Int × Option ε))
    (w : LineWriter ε) : Ret ε :=
  match pending with
  | none => ((0, none), w)
  | some (b, n, err) =>
    if n > 0 then
      let m : Int := b.length
      let n := if n > m then m else n
      ((n, err), { w with buf := bufNext w.buf n })
    else ((0, err), w)

/-- The buffer content `"foo"`. -/
def foo : List Byte := [102, 111, 111]

/-- A per-line writer holding `"foo"` over a sink that accepts everything. -/
def fooAccepting : LineWriter String :=
  { multiline := false, buf := foo, out := acceptAll, calls := [] }

/-- A per-line writer holding `"qux\nquux\n"` over a sink that reports `(-1, nil)` on its first
call and accepts everything afterwards. -/
def negativeOnce : LineWriter String :=
  { multiline := false, buf := quxquux,
    out := fun calls c => if calls.length = 0 then (-1, none) else (c.length, none),
    calls := [] }

end linewriter

namespace linewriter

/-! ### Slices and `IndexByte` -/

theorem IndexByte_ge (b : List Byte) (c : Byte) : -1 ≤ IndexByte b c := by
  induction b with
  | nil => simp [IndexByte]
  | cons x xs ih =>
    unfold IndexByte
    split_ifs <;> omega

theorem IndexByte_eq_neg_one_iff (b : List Byte) (c : Byte) : IndexByte b c = -1 ↔ c ∉ b := by
  induction b with
  | nil => simp [IndexByte]
  | cons x xs ih =>
    have hge := IndexByte_ge xs c
    unfold IndexByte
    by_cases hx : x = c
    · simp [hx]
    · have hx2 : ¬ c = x := fun h => hx h.symm
      by_cases hi : IndexByte xs c = -1
      · simp [hx, hi, hx2, ih.mp hi]
      · have hm : c ∈ xs := by
          by_contra hm
          exact hi (ih.mpr hm)
        simp only [hx, hi, if_false, List.mem_cons, hx2, hm, false_or, not_true_eq_false,
          iff_false]
        omega

theorem IndexByte_first (pre post : List Byte) (c : Byte) (h : c ∉ pre) :
    IndexByte (pre ++ c :: post) c = pre.length := by
  induction pre with
  | nil => simp [IndexByte]
  | cons x xs ih =>
    have hx : ¬ x = c := fun e => h (by simp [e])
    have hxs : c ∉ xs := fun e => h (by simp [e])
    have h2 := ih hxs
    have hne : IndexByte (xs ++ c :: post) c ≠ -1 := by rw [h2]; omega
    rw [List.cons_append, IndexByte, if_neg hx, if_neg hne, h2, List.length_cons]
    push_cast
    rfl

theorem exists_first (b : List Byte) (c : Byte) (h : c ∈ b) :
    ∃ pre post, b = pre ++ c :: post ∧ c ∉ pre := by
  induction b with
  | nil => simp at h
  | cons x xs ih =>
    by_cases hx : x = c
    · exact ⟨[], xs, by simp [hx], by simp⟩
    · have hm : c ∈ xs := by
        rcases List.mem_cons.mp h with e | e
        · exact absurd e.symm hx
        · exact e
      obtain ⟨pre, post, e, hp⟩ := ih hm
      refine ⟨x :: pre, post, by simp [e], ?_⟩
      intro hc
      rcases List.mem_cons.mp hc with e2 | e2
      · exact hx e2.symm
      · exact hp e2

theorem sliceFrom_cast (b : List Byte) (t : Nat) : sliceFrom b (t : Int) = b.drop t := by
  simp [sliceFrom]

theorem slice_line (b pre post : List Byte) (t : Nat) (h : b.drop t = pre ++ NL :: post) :
    slice b (t : Int) ((t : Int) + ((pre.length : Int) + 1)) = pre ++ [NL] := by
  have e1 : ((t : Int) + ((pre.length : Int) + 1)).toNat = t + (pre.length + 1) := by omega
  have e2 : ((t : Int)).toNat = t := by omega
  unfold slice
  rw [e1, e2, List.drop_take]
  have e3 : t + (pre.length + 1) - t = pre.length + 1 := by omega
  rw [e3, h]
  simp [List.take_append_eq_append_take]

theorem drop_add_of_drop (b rest : List Byte) (t k : Nat) (h : b.drop t = rest) :
    b.drop (t + k) = rest.drop k := by
  rw [← h, List.drop_drop]

/-! ### Complete lines and the end of the last line -/

theorem lastLineEnd_pos_iff (b : List Byte) : 0 < lastLineEnd b ↔ NL ∈ b := by
  induction b with
  | nil => simp [lastLineEnd]
  | cons x xs ih =>
    unfold lastLineEnd
    by_cases h1 : lastLineEnd xs > 0
    · simp [h1, ih.mp h1]
    · have hm : NL ∉ xs := fun hm => h1 (ih.mpr hm)
      by_cases hx : x = NL
      · simp [h1, hx]
      · have hx2 : ¬ NL = x := fun e => hx e.symm
        simp [h1, hx, hm, hx2]

theorem lastLineEnd_of_not_mem (b : List Byte) (h : NL ∉ b) : lastLineEnd b = 0 := by
  by_contra h0
  exact h ((lastLineEnd_pos_iff b).mp (by omega))

theorem lastLineEnd_append_cons (pre post : List Byte) :
    lastLineEnd (pre ++ NL :: post) = pre.length + 1 + lastLineEnd post := by
  induction pre with
  | nil =>
    simp only [List.nil_append, lastLineEnd, List.length_nil]
    split_ifs <;> omega
  | cons x xs ih =>
    rw [List.cons_append, lastLineEnd, ih, List.length_cons]
    split_ifs <;> omega

theorem lastLineEnd_le (b : List Byte) : lastLineEnd b ≤ b.length := by
  induction b with
  | nil => simp [lastLineEnd]
  | cons x xs ih =>
    rw [lastLineEnd, List.length_cons]
    split_ifs <;> omega

theorem completeLines_of_not_mem (b : List Byte) (h : NL ∉ b) : completeLines b = [] := by
  induction b with
  | nil => rfl
  | cons x xs ih =>
    have hx : ¬ x = NL := fun e => h (by simp [e])
    have hxs : NL ∉ xs := fun e => h (by simp [e])
    rw [completeLines, if_neg hx, ih hxs]

theorem completeLines_append_cons (pre post : List Byte) (h : NL ∉ pre) :
    completeLines (pre ++ NL :: post) = (pre ++ [NL]) :: completeLines post := by
  induction pre with
  | nil => simp [completeLines]
  | cons x xs ih =>
    have hx : ¬ x = NL := fun e => h (by simp [e])
    have hxs : NL ∉ xs := fun e => h (by simp [e])
    rw [List.cons_append, completeLines, if_neg hx, ih hxs]
    rfl

theorem count_append_cons (pre post : List Byte) (h : NL ∉ pre) :
    (pre ++ NL :: post).count NL = post.count NL + 1 := by
  rw [List.count_append, List.count_eq_zero_of_not_mem h, List.count_cons_self]
  omega

/-! ### The loops -/

theorem accepted_bounds {ε : Type} (c : Call ε) :
    0 ≤ accepted c ∧ accepted c ≤ (c.data.length : Int) := by
  unfold accepted
  split_ifs <;> omega

theorem flushLinesLoop_done {ε : Type} (out : Writer ε) (b : List Byte) (fuel t : Nat)
    (calls : List (Call ε)) (h : NL ∉ b.drop t) :
    flushLinesLoop out b fuel (t : Int) (IndexByte (sliceFrom b (t : Int)) NL) calls
      = some ((t : Int), none, calls) := by
  rw [sliceFrom_cast, (IndexByte_eq_neg_one_iff _ _).mpr h]
  cases fuel <;> simp [flushLinesLoop]

theorem flushLinesLoop_step {ε : Type} (out : Writer ε) (b pre post : List Byte) (fuel t : Nat)
    (calls : List (Call ε)) (h : b.drop t = pre ++ NL :: post) (hp : NL ∉ pre) :
    flushLinesLoop out b (fuel + 1) (t : Int) (IndexByte (sliceFrom b (t : Int)) NL) calls =
      match (out calls (pre ++ [NL])).2 with
      | some e =>
        some (((t + (accepted (mkCall out calls (pre ++ [NL]))).toNat : Nat) : Int), some e,
          calls ++ [mkCall out calls (pre ++ [NL])])
      | none =>
        flushLinesLoop out b fuel
          ((t + (accepted (mkCall out calls (pre ++ [NL]))).toNat : Nat) : Int)
          (IndexByte (sliceFrom b
            ((t + (accepted (mkCall out calls (pre ++ [NL]))).toNat : Nat) : Int)) NL)
          (calls ++ [mkCall out calls (pre ++ [NL])]) := by
  have hs := slice_line b pre post t h
  have hne : ¬ ((pre.length : Int) = -1) := by omega
  have hb := accepted_bounds (mkCall out calls (pre ++ [NL]))
  have hk : (if (out calls (pre ++ [NL])).1 > 0 then
        (t : Int) + (if (out calls (pre ++ [NL])).1 > ((pre ++ [NL]).length : Int)
          then ((pre ++ [NL]).length : Int) else (out calls (pre ++ [NL])).1)
      else (t : Int))
      = ((t + (accepted (mkCall out calls (pre ++ [NL]))).toNat : Nat) : Int) := by
    unfold accepted mkCall at *
    simp only at *
    split_ifs at * <;> omega
  rw [sliceFrom_cast, h, IndexByte_first _ _ _ hp, flushLinesLoop]
  simp only [if_neg hne, hs, hk]

theorem lines_induction (P : List Byte → Prop) (h0 : ∀ b, NL ∉ b → P b)
    (h1 : ∀ pre post, NL ∉ pre → P post → P (pre ++ NL :: post)) : ∀ b, P b := by
  intro b
  generalize hn : b.length = n
  induction n using Nat.strong_induction_on generalizing b with
  | _ n ih =>
    by_cases hm : NL ∈ b
    · obtain ⟨pre, post, e, hp⟩ := exists_first b NL hm
      subst e
      refine h1 pre post hp (ih post.length ?_ post rfl)
      rw [← hn]
      simp
      omega
    · exact h0 b hm

theorem completeLines_length (b : List Byte) : (completeLines b).length = b.count NL := by
  induction b using lines_induction with
  | h0 b h => rw [completeLines_of_not_mem b h, List.count_eq_zero_of_not_mem h]; rfl
  | h1 pre post hp ih =>
    rw [completeLines_append_cons pre post hp, count_append_cons pre post hp, List.length_cons, ih]

theorem completeLines_join (b : List Byte) :
    (completeLines b).flatten = b.take (lastLineEnd b) := by
  induction b using lines_induction with
  | h0 b h => rw [completeLines_of_not_mem b h, lastLineEnd_of_not_mem b h]; rfl
  | h1 pre post hp ih =>
    rw [completeLines_append_cons pre post hp, lastLineEnd_append_cons, List.flatten_cons, ih]
    have e : pre ++ NL :: post = (pre ++ [NL]) ++ post := by simp
    have e2 : pre.length + 1 + lastLineEnd post = (pre ++ [NL]).length + lastLineEnd post := by
      simp
    rw [e, e2, List.take_append]

theorem completeLines_form (b : List Byte) :
    ∀ l ∈ completeLines b, ∃ pre, l = pre ++ [NL] ∧ NL ∉ pre := by
  induction b using lines_induction with
  | h0 b h => rw [completeLines_of_not_mem b h]; simp
  | h1 pre post hp ih =>
    rw [completeLines_append_cons pre post hp]
    intro l hl
    rcases List.mem_cons.mp hl with e | e
    · exact ⟨pre, e, hp⟩
    · exact ih l e

theorem not_mem_drop_lastLineEnd (b : List Byte) : NL ∉ b.drop (lastLineEnd b) := by
  induction b using lines_induction with
  | h0 b h => rw [lastLineEnd_of_not_mem b h]; simpa using h
  | h1 pre post hp ih =>
    have e : pre ++ NL :: post = (pre ++ [NL]) ++ post := by simp
    have e2 : pre.length + 1 + lastLineEnd post = (pre ++ [NL]).length + lastLineEnd post := by
      simp
    rw [lastLineEnd_append_cons, e, e2, List.drop_append]
    exact ih

theorem drop_line (b pre post : List Byte) (t : Nat) (h : b.drop t = pre ++ NL :: post) :
    b.drop (t + (pre.length + 1)) = post := by
  rw [drop_add_of_drop b _ t _ h]
  have e : pre ++ NL :: post = (pre ++ [NL]) ++ post := by simp
  have e2 : pre.length + 1 = (pre ++ [NL]).length := by simp
  rw [e, e2, List.drop_left]

/-- The call record of a sink call that accepted the whole slice offered. -/
theorem mkCall_acceptAll {ε : Type} (out : Writer ε)
    (hacc : ∀ h c, out h c = ((c.length : Int), none)) (calls : List (Call ε)) (c : List Byte) :
    mkCall out calls c = { data := c, n := c.length, err := none } := by
  simp [mkCall, hacc]

theorem flushLinesLoop_acceptAll {ε : Type} (out : Writer ε)
    (hacc : ∀ h c, out h c = ((c.length : Int), none)) (b : List Byte) :
    ∀ (fuel t : Nat) (calls : List (Call ε)), (b.drop t).count NL ≤ fuel →
      flushLinesLoop out b fuel (t : Int) (IndexByte (sliceFrom b (t : Int)) NL) calls =
        some (((t + lastLineEnd (b.drop t) : Nat) : Int), none,
          calls ++ (completeLines (b.drop t)).map
            (fun l => { data := l, n := l.length, err := none })) := by
  intro fuel
  induction fuel with
  | zero =>
    intro t calls hc
    have hm : NL ∉ b.drop t := by
      intro hm
      have := List.count_pos_iff.mpr hm
      omega
    rw [flushLinesLoop_done out b 0 t calls hm, lastLineEnd_of_not_mem _ hm,
      completeLines_of_not_mem _ hm]
    simp
  | succ fuel ih =>
    intro t calls hc
    by_cases hm : NL ∈ b.drop t
    · obtain ⟨pre, post, e, hp⟩ := exists_first _ NL hm
      have hacc2 : accepted (mkCall out calls (pre ++ [NL])) = ((pre.length + 1 : Nat) : Int) := by
        rw [mkCall_acceptAll out hacc]
        simp [accepted]
      have hd := drop_line b pre post t e
      rw [flushLinesLoop_step out b pre post fuel t calls e hp, hacc, hacc2]
      simp only [Int.toNat_ofNat]
      rw [e, count_append_cons pre post hp] at hc
      have hih := ih (t + (pre.length + 1)) (calls ++ [mkCall out calls (pre ++ [NL])])
        (by rw [hd]; omega)
      rw [hih, hd, e, lastLineEnd_append_cons, completeLines_append_cons pre post hp,
        mkCall_acceptAll out hacc]
      simp only [List.map_cons, List.append_assoc, List.singleton_append, List.length_append,
        List.length_singleton]
      congr 3
      omega
    · rw [flushLinesLoop_done out b (fuel + 1) t calls hm, lastLineEnd_of_not_mem _ hm,
        completeLines_of_not_mem _ hm]
      simp

theorem lastLineEnd_drop (l : List Byte) :
    ∀ k, k ≤ lastLineEnd l → lastLineEnd (l.drop k) + k = lastLineEnd l := by
  induction l with
  | nil => intro k hk; simp [lastLineEnd] at *; exact hk
  | cons x xs ih =>
    intro k hk
    cases k with
    | zero => simp
    | succ k =>
      rw [List.drop_succ_cons]
      rw [lastLineEnd] at hk ⊢
      by_cases h1 : lastLineEnd xs > 0
      · rw [if_pos h1] at hk ⊢
        have := ih k (by omega)
        omega
      · rw [if_neg h1] at hk ⊢
        have h0 : lastLineEnd xs = 0 := by omega
        by_cases hx : x = NL
        · rw [if_pos hx] at hk ⊢
          have hk0 : k = 0 := by omega
          subst hk0
          simp [h0]
        · rw [if_neg hx] at hk
          omega

theorem flushLinesLoop_induct {ε : Type} (out : Writer ε) (b : List Byte)
    (P : Nat → List (Call ε) → Int × Option ε × List (Call ε) → Prop)
    (hdone : ∀ t calls, NL ∉ b.drop t → P t calls ((t : Int), none, calls))
    (herr : ∀ t calls pre post e, b.drop t = pre ++ NL :: post → NL ∉ pre →
      (out calls (pre ++ [NL])).2 = some e →
      P t calls (((t + (accepted (mkCall out calls (pre ++ [NL]))).toNat : Nat) : Int), some e,
        calls ++ [mkCall out calls (pre ++ [NL])]))
    (hstep : ∀ t calls pre post res, b.drop t = pre ++ NL :: post → NL ∉ pre →
      (out calls (pre ++ [NL])).2 = none →
      P (t + (accepted (mkCall out calls (pre ++ [NL]))).toNat)
        (calls ++ [mkCall out calls (pre ++ [NL])]) res →
      P t calls res) :
    ∀ (fuel t : Nat) (calls : List (Call ε)) (res : Int × Option ε × List (Call ε)),
      flushLinesLoop out b fuel (t : Int) (IndexByte (sliceFrom b (t : Int)) NL) calls = some res →
      P t calls res := by
  intro fuel
  induction fuel with
  | zero =>
    intro t calls res h
    by_cases hm : NL ∈ b.drop t
    · have hne : IndexByte (b.drop t) NL ≠ -1 := fun e => (IndexByte_eq_neg_one_iff _ _).mp e hm
      rw [sliceFrom_cast] at h
      simp [flushLinesLoop, hne] at h
    · rw [flushLinesLoop_done out b 0 t calls hm] at h
      cases h
      exact hdone t calls hm
  | succ fuel ih =>
    intro t calls res h
    by_cases hm : NL ∈ b.drop t
    · obtain ⟨pre, post, e, hp⟩ := exists_first _ NL hm
      rw [flushLinesLoop_step out b pre post fuel t calls e hp] at h
      cases he : (out calls (pre ++ [NL])).2 with
      | none =>
        rw [he] at h
        exact hstep t calls pre post res e hp he (ih _ _ _ h)
      | some err =>
        rw [he] at h
        cases h
        exact herr t calls pre post err e hp he
    · rw [flushLinesLoop_done out b (fuel + 1) t calls hm] at h
      cases h
      exact hdone t calls hm

theorem take_line (pre post : List Byte) (k : Nat) (hk : k ≤ pre.length + 1) :
    (pre ++ [NL]).take k = (pre ++ NL :: post).take k := by
  have e : pre ++ NL :: post = (pre ++ [NL]) ++ post := by simp
  rw [e]
  exact (List.take_append_of_le_length (by simpa using hk)).symm

/-- What every returning run of the `flushLines` loop satisfies, from loop state `(t, calls)`:
the calls made are appended to the history, the offset advances by the sum of the counts
credited, the bytes credited are the bytes passed over, the offset stays within the complete
lines, a nil error means no delimiter is left, and only the last call can carry an error. -/
theorem flushLinesLoop_trace {ε : Type} (out : Writer ε) (b : List Byte) :
    ∀ (fuel t : Nat) (calls : List (Call ε)) (res : Int × Option ε × List (Call ε)),
      flushLinesLoop out b fuel (t : Int) (IndexByte (sliceFrom b (t : Int)) NL) calls = some res →
      ∃ (k : Nat) (new : List (Call ε)),
        res.1 = ((t + k : Nat) : Int) ∧ res.2.2 = calls ++ new ∧
        (new.map accepted).sum = (k : Int) ∧
        (new.map acceptedBytes).flatten = (b.drop t).take k ∧
        k ≤ lastLineEnd (b.drop t) ∧
        (res.2.1 = none → NL ∉ b.drop (t + k)) ∧
        (∀ p c q, new = p ++ c :: q → c.err ≠ none → q = [] ∧ res.2.1 = c.err) ∧
        (res.2.1 ≠ none → ∃ p c, new = p ++ [c] ∧ c.err = res.2.1) := by
  apply flushLinesLoop_induct out b
  · intro t calls hm
    refine ⟨0, [], by simp, by simp, by simp, by simp, by simp, ?_, ?_, ?_⟩
    · intro _; simpa using hm
    · intro p c q h; simp at h
    · intro h; simp at h
  · intro t calls pre post e hd hp he
    have hb := accepted_bounds (mkCall out calls (pre ++ [NL]))
    have hlen : (mkCall out calls (pre ++ [NL])).data.length = pre.length + 1 := by
      simp [mkCall]
    rw [hlen] at hb
    refine ⟨(accepted (mkCall out calls (pre ++ [NL]))).toNat,
      [mkCall out calls (pre ++ [NL])], rfl, rfl, ?_, ?_, ?_, ?_, ?_, ?_⟩
    · simp only [List.map_cons, List.map_nil, List.sum_cons, List.sum_nil, add_zero]
      omega
    · simp only [List.map_cons, List.map_nil, List.flatten_cons, List.flatten_nil,
        List.append_nil, acceptedBytes]
      rw [hd]
      exact take_line pre post _ (by omega)
    · rw [hd, lastLineEnd_append_cons]
      omega
    · intro h; simp at h
    · intro p c q h hc
      rcases p with _ | ⟨x, p⟩
      · simp only [List.nil_append, List.cons.injEq] at h
        refine ⟨h.2.symm, ?_⟩
        rw [← h.1]
        simp [mkCall, he]
      · simp at h
    · intro _
      exact ⟨[], mkCall out calls (pre ++ [NL]), rfl, by simp [mkCall, he]⟩
  · intro t calls pre post res hd hp he ih
    have hb := accepted_bounds (mkCall out calls (pre ++ [NL]))
    have hlen : (mkCall out calls (pre ++ [NL])).data.length = pre.length + 1 := by
      simp [mkCall]
    rw [hlen] at hb
    obtain ⟨k2, new2, h1, h2, h3, h4, h5, h6, h7, h8⟩ := ih
    have hk1 : (accepted (mkCall out calls (pre ++ [NL]))).toNat ≤ lastLineEnd (b.drop t) := by
      rw [hd, lastLineEnd_append_cons]
      omega
    have hdd : b.drop (t + (accepted (mkCall out calls (pre ++ [NL]))).toNat)
        = (b.drop t).drop (accepted (mkCall out calls (pre ++ [NL]))).toNat :=
      drop_add_of_drop b _ t _ rfl
    have hl := lastLineEnd_drop (b.drop t) _ hk1
    refine ⟨(accepted (mkCall out calls (pre ++ [NL]))).toNat + k2,
      mkCall out calls (pre ++ [NL]) :: new2, ?_, ?_, ?_, ?_, ?_, ?_, ?_, ?_⟩
    · rw [h1]; push_cast; omega
    · rw [h2]; simp
    · simp only [List.map_cons, List.sum_cons, h3]
      push_cast
      omega
    · simp only [List.map_cons, List.flatten_cons, h4, acceptedBytes]
      rw [hdd, List.take_add]
      congr 1
      rw [hd]
      exact take_line pre post _ (by omega)
    · rw [hdd] at h5
      omega
    · intro hn
      have := h6 hn
      rwa [Nat.add_assoc] at this
    · intro p c q h hc
      rcases p with _ | ⟨x, p⟩
      · simp only [List.nil_append, List.cons.injEq] at h
        exfalso
        apply hc
        rw [← h.1]
        simp [mkCall, he]
      · simp only [List.cons_append, List.cons.injEq] at h
        exact h7 p c q h.2 hc
    · intro hn
      obtain ⟨p, c, hpc, hc⟩ := h8 hn
      exact ⟨mkCall out calls (pre ++ [NL]) :: p, c, by simp [hpc], hc⟩

/-! ### The operations in closed form -/

theorem FlushAll_eq {ε : Type} (w : LineWriter ε) :
    FlushAll w =
      if w.buf = [] then ((0, none), w)
      else ((accepted (mkCall w.out w.calls w.buf), (mkCall w.out w.calls w.buf).err),
        { w with buf := w.buf.drop (accepted (mkCall w.out w.calls w.buf)).toNat,
                 calls := w.calls ++ [mkCall w.out w.calls w.buf] }) := by
  unfold FlushAll Len
  by_cases hb : w.buf = []
  · simp [hb]
  · have hl : ¬ ((w.buf.length : Int) = 0) := by
      intro h
      exact hb (List.length_eq_zero.mp (by omega))
    simp only [hl, hb, if_false]
    unfold accepted mkCall bufNext
    simp only
    by_cases hn : (w.out w.calls w.buf).1 > 0
    · simp only [hn, if_true]
    · simp only [hn, if_false]
      simp

theorem flushLines_eq {ε : Type} (fuel : Nat) (w : LineWriter ε) :
    flushLines fuel w =
      (flushLinesLoop w.out w.buf fuel ((0 : Nat) : Int)
        (IndexByte (sliceFrom w.buf ((0 : Nat) : Int)) NL) w.calls).map
        (fun res => ((res.1, res.2.1),
          { w with buf := w.buf.drop res.1.toNat, calls := res.2.2 })) := by
  have e0 : sliceFrom w.buf ((0 : Nat) : Int) = w.buf := by simp [sliceFrom]
  rw [e0]
  unfold flushLines
  simp only [Nat.cast_zero]
  cases h : flushLinesLoop w.out w.buf fuel 0 (IndexByte w.buf NL) w.calls with
  | none => rfl
  | some res =>
    obtain ⟨tail, err, calls⟩ := res
    simp only [Option.map_some', bufNext]
    by_cases ht : tail > 0
    · simp only [ht, if_true]
    · simp only [ht, if_false]
      have : tail.toNat = 0 := by omega
      simp [this]

theorem flushMultilineLoop_eq (b : List Byte) :
    ∀ (fuel t : Nat), (b.drop t).count NL ≤ fuel →
      flushMultilineLoop b fuel (t : Int) (IndexByte (sliceFrom b (t : Int)) NL)
        = some (((t + lastLineEnd (b.drop t) : Nat) : Int)) := by
  intro fuel
  induction fuel with
  | zero =>
    intro t hc
    have hm : NL ∉ b.drop t := by
      intro hm
      have := List.count_pos_iff.mpr hm
      omega
    rw [sliceFrom_cast, (IndexByte_eq_neg_one_iff _ _).mpr hm, lastLineEnd_of_not_mem _ hm]
    simp [flushMultilineLoop]
  | succ fuel ih =>
    intro t hc
    by_cases hm : NL ∈ b.drop t
    · obtain ⟨pre, post, e, hp⟩ := exists_first _ NL hm
      have hd := drop_line b pre post t e
      have hne : ¬ ((pre.length : Int) = -1) := by omega
      have hc2 : (b.drop (t + (pre.length + 1))).count NL ≤ fuel := by
        rw [e, count_append_cons pre post hp] at hc
        rw [hd]
        omega
      have hih := ih (t + (pre.length + 1)) hc2
      have ecast : (t : Int) + ((pre.length : Int) + 1) = ((t + (pre.length + 1) : Nat) : Int) := by
        push_cast
        rfl
      rw [sliceFrom_cast, e, IndexByte_first _ _ _ hp, flushMultilineLoop]
      simp only [if_neg hne]
      rw [ecast, hih, hd, lastLineEnd_append_cons]
      congr 2
      omega
    · rw [sliceFrom_cast, (IndexByte_eq_neg_one_iff _ _).mpr hm, lastLineEnd_of_not_mem _ hm]
      simp [flushMultilineLoop]

theorem flushMultiline_eq {ε : Type} (fuel : Nat) (w : LineWriter ε)
    (hf : w.buf.count NL ≤ fuel) :
    flushMultiline fuel w = some (
      if lastLineEnd w.buf = 0 then ((0, none), w)
      else
        ((accepted (mkCall w.out w.calls (w.buf.take (lastLineEnd w.buf))),
          (mkCall w.out w.calls (w.buf.take (lastLineEnd w.buf))).err),
        { w with
          buf := w.buf.drop
            (accepted (mkCall w.out w.calls (w.buf.take (lastLineEnd w.buf)))).toNat,
          calls := w.calls ++ [mkCall w.out w.calls (w.buf.take (lastLineEnd w.buf))] })) := by
  have hl := flushMultilineLoop_eq w.buf fuel 0 (by simpa using hf)
  have e0 : sliceFrom w.buf ((0 : Nat) : Int) = w.buf := by simp [sliceFrom]
  rw [e0] at hl
  simp only [Nat.cast_zero, List.drop_zero, Nat.zero_add] at hl
  unfold flushMultiline
  simp only [hl]
  by_cases h0 : lastLineEnd w.buf = 0
  · simp [h0]
  · have h1 : ¬ ((lastLineEnd w.buf : Int) = 0) := by omega
    have hs : slice w.buf 0 (lastLineEnd w.buf : Int) = w.buf.take (lastLineEnd w.buf) := by
      simp [slice]
    simp only [h0, h1, if_false, hs]
    unfold accepted mkCall bufNext
    simp only
    by_cases hn : (w.out w.calls (w.buf.take (lastLineEnd w.buf))).1 > 0
    · simp only [hn, if_true]
    · simp only [hn, if_false]
      simp

theorem take_lastLineEnd_form (b : List Byte) (h : NL ∈ b) :
    ∃ pre, b.take (lastLineEnd b) = pre ++ [NL] := by
  induction b using lines_induction with
  | h0 b hb => exact absurd h hb
  | h1 pre post hp ih =>
    have e : pre ++ NL :: post = (pre ++ [NL]) ++ post := by simp
    have e2 : pre.length + 1 + lastLineEnd post = (pre ++ [NL]).length + lastLineEnd post := by
      simp
    rw [lastLineEnd_append_cons, e, e2, List.take_append]
    by_cases hm : NL ∈ post
    · obtain ⟨pre2, h2⟩ := ih hm
      exact ⟨pre ++ [NL] ++ pre2, by rw [h2]; simp⟩
    · rw [lastLineEnd_of_not_mem post hm]
      exact ⟨pre, by simp⟩

/-! ### Flush with a well-behaved sink -/

theorem Flush_perline {ε : Type} (fuel : Nat) (w : LineWriter ε) (hmode : w.multiline = false) :
    Flush fuel w = flushLines fuel w := by
  unfold Flush
  simp only [hmode, Bool.false_eq_true, if_false]

theorem Flush_batched {ε : Type} (fuel : Nat) (w : LineWriter ε) (hmode : w.multiline = true) :
    Flush fuel w = flushMultiline fuel w := by
  unfold Flush
  simp only [hmode, if_true]

theorem flushLines_acceptAll {ε : Type} (w : LineWriter ε) (fuel : Nat)
    (hacc : ∀ h c, w.out h c = ((c.length : Int), none))
    (hfuel : w.buf.count NL ≤ fuel) :
    flushLines fuel w = some (((lastLineEnd w.buf : Int), none),
      { w with
        buf := w.buf.drop (lastLineEnd w.buf),
        calls := w.calls ++ (completeLines w.buf).map
          (fun l => { data := l, n := l.length, err := none }) }) := by
  have h := flushLinesLoop_acceptAll w.out hacc w.buf fuel 0 w.calls (by simpa using hfuel)
  rw [flushLines_eq, h]
  simp

/-- C1: in per-line mode, over a sink that accepts every slice in full and reports no error,
`Flush` returns `(p, nil)` where `p` is the offset just past the last delimiter, leaves in the
buffer the bytes after the last delimiter, and makes one sink call per complete line, in buffer
order, each carrying exactly that line.  There are as many complete lines as delimiters, each
complete line ends at its only delimiter, together they are the first `p` bytes of the buffer,
and no delimiter follows offset `p`. -/
theorem flush_perline_accept_all {ε : Type} (w : LineWriter ε) (fuel : Nat)
    (hmode : w.multiline = false)
    (hacc : ∀ h c, w.out h c = ((c.length : Int), none))
    (hfuel : w.buf.count NL ≤ fuel) :
    Flush fuel w = some (((lastLineEnd w.buf : Int), none),
      { w with
        buf := w.buf.drop (lastLineEnd w.buf),
        calls := w.calls ++ (completeLines w.buf).map
          (fun l => { data := l, n := l.length, err := none }) })
    ∧ (completeLines w.buf).length = w.buf.count NL
    ∧ (completeLines w.buf).flatten = w.buf.take (lastLineEnd w.buf)
    ∧ (∀ l ∈ completeLines w.buf, ∃ pre, l = pre ++ [NL] ∧ NL ∉ pre)
    ∧ NL ∉ w.buf.drop (lastLineEnd w.buf) := by
  refine ⟨?_, completeLines_length _, completeLines_join _, completeLines_form _,
    not_mem_drop_lastLineEnd _⟩
  rw [Flush_perline fuel w hmode]
  exact flushLines_acceptAll w fuel hacc hfuel

/-- Witness of C1 on the buffer `"foobar\nbaz\n"` of `TestLineWriter_Flush`: two sink calls,
`"foobar\n"` then `"baz\n"`, the count 11 and an empty buffer. -/
theorem flush_perline_accept_all_witness :
    (perLineAccepting.multiline = false
      ∧ (∀ h c, perLineAccepting.out h c = ((c.length : Int), none))
      ∧ perLineAccepting.buf.count NL ≤ 2)
    ∧ (Flush 2 perLineAccepting).map (fun r => (r.1, r.2.buf, r.2.calls.map Call.data))
        = some ((11, none), [], [[102, 111, 111, 98, 97, 114, 10], [98, 97, 122, 10]]) := by
  refine ⟨⟨rfl, fun _ _ => rfl, by decide⟩, ?_⟩
  rw [(flush_perline_accept_all perLineAccepting 2 rfl (fun _ _ => rfl) (by decide)).1]
  decide

/-- C2: in batched mode, for every buffer and every sink: when the buffer holds no delimiter,
`Flush` returns `(0, nil)` and leaves the writer as it was (no sink call, same buffer); when it
holds one, `Flush` makes exactly one sink call, whose argument is the buffer up to offset `p`,
where `p` is just past the last delimiter: that argument ends with a delimiter and no delimiter
is left after it. -/
theorem flush_batched_single_call {ε : Type} (w : LineWriter ε) (fuel : Nat)
    (hmode : w.multiline = true) (hfuel : w.buf.count NL ≤ fuel) :
    (NL ∉ w.buf → Flush fuel w = some ((0, none), w))
    ∧ (NL ∈ w.buf → ∃ r p, Flush fuel w = some r
        ∧ r.2.calls = w.calls ++ [mkCall w.out w.calls (w.buf.take p)]
        ∧ 0 < p ∧ p ≤ w.buf.length
        ∧ (∃ pre, w.buf.take p = pre ++ [NL])
        ∧ NL ∉ w.buf.drop p) := by
  rw [Flush_batched fuel w hmode, flushMultiline_eq fuel w hfuel]
  constructor
  · intro hm
    rw [if_pos (lastLineEnd_of_not_mem _ hm)]
  · intro hm
    have hpos := (lastLineEnd_pos_iff w.buf).mpr hm
    have h0 : ¬ lastLineEnd w.buf = 0 := by omega
    rw [if_neg h0]
    exact ⟨_, lastLineEnd w.buf, rfl, rfl, hpos, lastLineEnd_le _, take_lastLineEnd_form _ hm,
      not_mem_drop_lastLineEnd _⟩

/-- Witness of C2 on the buffer `"bar\nbaz"`: one sink call carrying `"bar\n"`. -/
theorem flush_batched_single_call_witness :
    (batchedAccepting.multiline = true ∧ batchedAccepting.buf.count NL ≤ 1
      ∧ NL ∈ batchedAccepting.buf)
    ∧ ∃ r p, Flush 1 batchedAccepting = some r
        ∧ r.2.calls = batchedAccepting.calls
            ++ [mkCall batchedAccepting.out batchedAccepting.calls (batchedAccepting.buf.take p)]
        ∧ 0 < p ∧ p ≤ batchedAccepting.buf.length
        ∧ (∃ pre, batchedAccepting.buf.take p = pre ++ [NL])
        ∧ NL ∉ batchedAccepting.buf.drop p :=
  ⟨⟨rfl, by decide, by decide⟩,
    (flush_batched_single_call batchedAccepting 1 rfl (by decide)).2 (by decide)⟩

/-! ### The first sink call -/

theorem accepted_mkCall {ε : Type} (out : Writer ε) (calls : List (Call ε)) (c : List Byte) :
    accepted (mkCall out calls c) =
      if (out calls c).1 > 0 then
        (if (out calls c).1 > (c.length : Int) then (c.length : Int) else (out calls c).1)
      else 0 := rfl

/-- Per-line `Flush` whose first sink call reports an error returns at once. -/
theorem flushLines_first_error {ε : Type} (w : LineWriter ε) (fuel : Nat) (pre post : List Byte)
    (e : ε) (hb : w.buf = pre ++ NL :: post) (hp : NL ∉ pre)
    (he : (w.out w.calls (pre ++ [NL])).2 = some e) :
    flushLines (fuel + 1) w = some
      ((accepted (mkCall w.out w.calls (pre ++ [NL])), some e),
        { w with
          buf := w.buf.drop (accepted (mkCall w.out w.calls (pre ++ [NL]))).toNat,
          calls := w.calls ++ [mkCall w.out w.calls (pre ++ [NL])] }) := by
  have hb0 : w.buf.drop 0 = pre ++ NL :: post := by simpa using hb
  have hacc := accepted_bounds (mkCall w.out w.calls (pre ++ [NL]))
  rw [flushLines_eq, flushLinesLoop_step w.out w.buf pre post fuel 0 w.calls hb0 hp, he]
  simp only [Option.map_some', Nat.zero_add, Int.toNat_ofNat]
  congr 3
  omega

/-- C3: when the sink reports `(0, err)` with `err` non-nil, `FlushAll` on a non-empty buffer
and `Flush` (either mode) on a buffer holding a delimiter return `(0, err)` and leave the
buffer, content and length, exactly as it was. -/
theorem zero_with_error_keeps_buffer {ε : Type} (w : LineWriter ε) (e : ε) (fuel : Nat)
    (hsink : ∀ c, w.out w.calls c = (0, some e)) :
    (w.buf ≠ [] →
      (FlushAll w).1 = (0, some e) ∧ (FlushAll w).2.buf = w.buf ∧ Len (FlushAll w).2 = Len w)
    ∧ (NL ∈ w.buf → w.buf.count NL ≤ fuel →
      ∃ r, Flush fuel w = some r ∧ r.1 = (0, some e) ∧ r.2.buf = w.buf ∧ Len r.2 = Len w) := by
  have hacc : ∀ c, accepted (mkCall w.out w.calls c) = 0 := by
    intro c
    rw [accepted_mkCall, hsink]
    simp
  constructor
  · intro hne
    rw [FlushAll_eq, if_neg hne, hacc]
    simp [mkCall, hsink, Len]
  · intro hm hfuel
    cases hmode : w.multiline with
    | true =>
      have h0 : ¬ lastLineEnd w.buf = 0 := by
        have := (lastLineEnd_pos_iff w.buf).mpr hm
        omega
      rw [Flush_batched fuel w hmode, flushMultiline_eq fuel w hfuel, if_neg h0, hacc]
      exact ⟨_, rfl, by simp [mkCall, hsink], by simp, by simp [Len]⟩
    | false =>
      obtain ⟨pre, post, hb, hp⟩ := exists_first _ NL hm
      have hpos := List.count_pos_iff.mpr hm
      obtain ⟨f, rfl⟩ : ∃ f, fuel = f + 1 := ⟨fuel - 1, by omega⟩
      have he : (w.out w.calls (pre ++ [NL])).2 = some e := by rw [hsink]
      rw [Flush_perline _ w hmode, flushLines_first_error w f pre post e hb hp he, hacc]
      exact ⟨_, rfl, rfl, by simp, by simp [Len]⟩

/-- Witness of C3 on the buffer `"qux\nquux\n"` of `TestLineWriter_Flush` in batched mode with
the sink reporting `(0, error of writer)`. -/
theorem zero_with_error_keeps_buffer_witness :
    (∀ c, (constSinkWriter true 0 (some errWriter)).out (constSinkWriter true 0 (some errWriter)).calls c
        = (0, some errWriter))
    ∧ NL ∈ (constSinkWriter true 0 (some errWriter)).buf
    ∧ (constSinkWriter true 0 (some errWriter)).buf.count NL ≤ 2
    ∧ ∃ r, Flush 2 (constSinkWriter true 0 (some errWriter)) = some r
        ∧ r.1 = (0, some errWriter)
        ∧ r.2.buf = (constSinkWriter true 0 (some errWriter)).buf
        ∧ Len r.2 = Len (constSinkWriter true 0 (some errWriter)) :=
  ⟨fun _ => rfl, by decide, by decide,
    (zero_with_error_keeps_buffer (constSinkWriter true 0 (some errWriter)) errWriter 2
      (fun _ => rfl)).2 (by decide) (by decide)⟩

theorem lastLineEnd_last (done rest : List Byte) (h : NL ∉ rest) :
    lastLineEnd (done ++ NL :: rest) = done.length + 1 := by
  rw [lastLineEnd_append_cons, lastLineEnd_of_not_mem rest h]

theorem drop_through (done rest : List Byte) :
    (done ++ NL :: rest).drop (done.length + 1) = rest := by
  have e : done ++ NL :: rest = (done ++ [NL]) ++ rest := by simp
  have e2 : done.length + 1 = (done ++ [NL]).length := by simp
  rw [e, e2, List.drop_left]

/-- C4 (clamping): when the sink reports `(N, err)` with `err` non-nil and `N` greater than the
number of bytes offered, exactly the bytes offered are removed from the head of the buffer,
the count returned is the number of bytes offered, and `err` is returned.  The bytes offered
are the whole buffer for `FlushAll`, the buffer through its last delimiter for batched
`Flush`, and the first complete line for per-line `Flush`. -/
theorem over_report_is_clamped {ε : Type} (w : LineWriter ε) (N : Int) (e : ε) (fuel : Nat)
    (hsink : ∀ c, w.out w.calls c = (N, some e)) :
    (w.buf ≠ [] → N > (w.buf.length : Int) →
      (FlushAll w).1 = ((w.buf.length : Int), some e) ∧ (FlushAll w).2.buf = [])
    ∧ (w.multiline = true → ∀ done rest, w.buf = done ++ NL :: rest → NL ∉ rest →
        w.buf.count NL ≤ fuel → N > ((done.length + 1 : Nat) : Int) →
        ∃ r, Flush fuel w = some r ∧ r.1 = (((done.length + 1 : Nat) : Int), some e)
          ∧ r.2.buf = rest ∧ r.2.calls = w.calls ++ [mkCall w.out w.calls (done ++ [NL])])
    ∧ (w.multiline = false → ∀ pre post, w.buf = pre ++ NL :: post → NL ∉ pre →
        0 < fuel → N > ((pre.length + 1 : Nat) : Int) →
        ∃ r, Flush fuel w = some r ∧ r.1 = (((pre.length + 1 : Nat) : Int), some e)
          ∧ r.2.buf = post ∧ r.2.calls = w.calls ++ [mkCall w.out w.calls (pre ++ [NL])]) := by
  have hacc : ∀ c : List Byte, c ≠ [] → N > (c.length : Int) →
      accepted (mkCall w.out w.calls c) = (c.length : Int) := by
    intro c hc hN
    have hl : 0 < c.length := List.length_pos.mpr hc
    rw [accepted_mkCall, hsink]
    simp only
    rw [if_pos (by omega), if_pos hN]
  refine ⟨?_, ?_, ?_⟩
  · intro hne hN
    rw [FlushAll_eq, if_neg hne, hacc w.buf hne hN]
    simp [mkCall, hsink]
  · intro hmode done rest hb hr hfuel hN
    have hl : lastLineEnd w.buf = done.length + 1 := by rw [hb, lastLineEnd_last done rest hr]
    have h0 : ¬ lastLineEnd w.buf = 0 := by omega
    have ht : w.buf.take (done.length + 1) = done ++ [NL] := by
      have e : done ++ NL :: rest = (done ++ [NL]) ++ rest := by simp
      have e2 : done.length + 1 = (done ++ [NL]).length := by simp
      rw [hb, e, e2, List.take_left]
    have ha := hacc (done ++ [NL]) (by simp) (by simpa using hN)
    rw [Flush_batched fuel w hmode, flushMultiline_eq fuel w hfuel, if_neg h0, hl, ht, ha]
    refine ⟨_, rfl, by simp [mkCall, hsink], ?_, rfl⟩
    simp only [List.length_append, List.length_singleton, Int.toNat_ofNat]
    rw [hb, drop_through]
  · intro hmode pre post hb hp hfuel hN
    obtain ⟨f, rfl⟩ : ∃ f, fuel = f + 1 := ⟨fuel - 1, by omega⟩
    have he : (w.out w.calls (pre ++ [NL])).2 = some e := by rw [hsink]
    have ha := hacc (pre ++ [NL]) (by simp) (by simpa using hN)
    rw [Flush_perline _ w hmode, flushLines_first_error w f pre post e hb hp he, ha]
    refine ⟨_, rfl, by simp, ?_, rfl⟩
    simp only [List.length_append, List.length_singleton, Int.toNat_ofNat]
    rw [hb, drop_through]

/-- Witness of C4 on the per-line case of `TestLineWriter_Flush`: the buffer `"qux\nquux\n"`
and the sink reporting `(1000, error of writer)`; the first line `"qux\n"` is removed and the
count is 4. -/
theorem over_report_is_clamped_witness :
    (∀ c, (constSinkWriter false 1000 (some errWriter)).out
        (constSinkWriter false 1000 (some errWriter)).calls c = (1000, some errWriter))
    ∧ (constSinkWriter false 1000 (some errWriter)).multiline = false
    ∧ (constSinkWriter false 1000 (some errWriter)).buf
        = [113, 117, 120] ++ NL :: [113, 117, 117, 120, 10]
    ∧ NL ∉ ([113, 117, 120] : List Byte)
    ∧ ∃ r, Flush 1 (constSinkWriter false 1000 (some errWriter)) = some r
        ∧ r.1 = (((([113, 117, 120] : List Byte).length + 1 : Nat) : Int), some errWriter)
        ∧ r.2.buf = [113, 117, 117, 120, 10]
        ∧ r.2.calls = (constSinkWriter false 1000 (some errWriter)).calls
            ++ [mkCall (constSinkWriter false 1000 (some errWriter)).out
                (constSinkWriter false 1000 (some errWriter)).calls ([113, 117, 120] ++ [NL])] :=
  ⟨fun _ => rfl, rfl, rfl, by decide,
    (over_report_is_clamped (constSinkWriter false 1000 (some errWriter)) 1000 errWriter 1
      (fun _ => rfl)).2.2 rfl [113, 117, 120] [113, 117, 117, 120, 10] rfl (by decide)
      (by decide) (by decide)⟩

/-- C10: on a non-empty buffer `FlushAll` makes exactly one sink call, whose argument is the
whole buffer; when the sink reports `(k, e)` with `k > 0` the first `min(k, len(buffer))`
bytes are removed and `(min(k, len(buffer)), e)` is returned; when it reports `k = 0` nothing
is removed and `(0, e)` is returned. -/
theorem flushAll_single_call {ε : Type} (w : LineWriter ε) (k : Int) (e : Option ε)
    (hne : w.buf ≠ []) (hsink : w.out w.calls w.buf = (k, e)) :
    (FlushAll w).2.calls = w.calls ++ [{ data := w.buf, n := k, err := e }]
    ∧ (0 < k →
        (FlushAll w).1 = (min k (w.buf.length : Int), e)
        ∧ (FlushAll w).2.buf = w.buf.drop (min k (w.buf.length : Int)).toNat)
    ∧ (k = 0 → (FlushAll w).1 = (0, e) ∧ (FlushAll w).2.buf = w.buf) := by
  have ha := accepted_mkCall w.out w.calls w.buf
  rw [hsink] at ha
  simp only at ha
  rw [FlushAll_eq, if_neg hne]
  refine ⟨by simp [mkCall, hsink], ?_, ?_⟩
  · intro hk
    have hmin : accepted (mkCall w.out w.calls w.buf) = min k (w.buf.length : Int) := by
      rw [ha, if_pos hk]
      split_ifs <;> omega
    rw [hmin]
    simp [mkCall, hsink]
  · intro hk
    have h0 : accepted (mkCall w.out w.calls w.buf) = 0 := by
      rw [ha, if_neg (by omega)]
    rw [h0]
    simp [mkCall, hsink]

/-- Witness of C10 on `TestLineWriter_FlushAll`: the buffer `"qux\nquux\n"` (9 bytes) and the
sink reporting `(1000, error of writer)`. -/
theorem flushAll_single_call_witness :
    ((constSinkWriter false 1000 (some errWriter)).buf ≠ []
      ∧ (constSinkWriter false 1000 (some errWriter)).out
          (constSinkWriter false 1000 (some errWriter)).calls
          (constSinkWriter false 1000 (some errWriter)).buf = (1000, some errWriter))
    ∧ (FlushAll (constSinkWriter false 1000 (some errWriter))).1 = (9, some errWriter)
    ∧ (FlushAll (constSinkWriter false 1000 (some errWriter))).2.buf = [] := by
  have h := (flushAll_single_call (constSinkWriter false 1000 (some errWriter)) 1000
    (some errWriter) (by decide) rfl).2.1 (by decide)
  refine ⟨⟨by decide, rfl⟩, ?_, ?_⟩
  · rw [h.1]; decide
  · rw [h.2]; decide

/-! ### Every returning flush -/

theorem flushMultilineLoop_some (b : List Byte) :
    ∀ (fuel t : Nat) (x : Int),
      flushMultilineLoop b fuel (t : Int) (IndexByte (sliceFrom b (t : Int)) NL) = some x →
      x = ((t + lastLineEnd (b.drop t) : Nat) : Int) := by
  intro fuel
  induction fuel with
  | zero =>
    intro t x h
    by_cases hm : NL ∈ b.drop t
    · have hne : IndexByte (b.drop t) NL ≠ -1 := fun e => (IndexByte_eq_neg_one_iff _ _).mp e hm
      rw [sliceFrom_cast] at h
      simp [flushMultilineLoop, hne] at h
    · rw [flushMultilineLoop_eq b 0 t (by rw [List.count_eq_zero_of_not_mem hm])] at h
      exact (Option.some.inj h).symm
  | succ fuel ih =>
    intro t x h
    by_cases hm : NL ∈ b.drop t
    · obtain ⟨pre, post, e, hp⟩ := exists_first _ NL hm
      have hd := drop_line b pre post t e
      have hne : ¬ ((pre.length : Int) = -1) := by omega
      have ecast : (t : Int) + ((pre.length : Int) + 1) = ((t + (pre.length + 1) : Nat) : Int) := by
        push_cast
        rfl
      rw [sliceFrom_cast, e, IndexByte_first _ _ _ hp, flushMultilineLoop] at h
      simp only [if_neg hne] at h
      rw [ecast] at h
      rw [ih _ _ h, hd, e, lastLineEnd_append_cons]
      congr 1
      omega
    · rw [flushMultilineLoop_eq b (fuel + 1) t
        (by rw [List.count_eq_zero_of_not_mem hm]; omega)] at h
      exact (Option.some.inj h).symm

/-- A returning `flushMultiline` returns what it returns with fuel for one iteration per
delimiter. -/
theorem flushMultiline_some {ε : Type} (fuel : Nat) (w : LineWriter ε) (r : Ret ε)
    (h : flushMultiline fuel w = some r) : flushMultiline (w.buf.count NL) w = some r := by
  have e0 : sliceFrom w.buf ((0 : Nat) : Int) = w.buf := by simp [sliceFrom]
  have key : flushMultilineLoop w.buf fuel 0 (IndexByte w.buf NL)
      = flushMultilineLoop w.buf (w.buf.count NL) 0 (IndexByte w.buf NL) := by
    cases hl : flushMultilineLoop w.buf fuel 0 (IndexByte w.buf NL) with
    | none =>
      unfold flushMultiline at h
      simp only [hl] at h
      cases h
    | some x =>
      have h1 := flushMultilineLoop_some w.buf fuel 0 x (by rw [e0]; simpa using hl)
      have h2 := flushMultilineLoop_eq w.buf (w.buf.count NL) 0 (by simp)
      rw [e0] at h2
      simp only [Nat.cast_zero] at h2
      rw [h2, h1]
  unfold flushMultiline at h ⊢
  simp only at h ⊢
  rw [key] at h
  exact h

/-- Every returning `Flush`, in either mode and over any sink: the calls made are appended to
the history, the count returned is the sum of the counts credited to them, that many bytes are
removed from the head of the buffer, they are the bytes credited, in call order, and they all
lie within the complete lines. -/
theorem Flush_trace {ε : Type} (fuel : Nat) (w : LineWriter ε) (r : Ret ε)
    (h : Flush fuel w = some r) :
    ∃ (k : Nat) (new : List (Call ε)),
      r.1.1 = (k : Int)
      ∧ r.2 = { w with buf := w.buf.drop k, calls := w.calls ++ new }
      ∧ (new.map accepted).sum = (k : Int)
      ∧ (new.map acceptedBytes).flatten = w.buf.take k
      ∧ k ≤ lastLineEnd w.buf := by
  rcases Bool.eq_false_or_eq_true w.multiline with hmode | hmode
  · rw [Flush_batched fuel w hmode] at h
    have h2 := flushMultiline_some fuel w r h
    rw [flushMultiline_eq _ w (le_refl _)] at h2
    by_cases h0 : lastLineEnd w.buf = 0
    · rw [if_pos h0] at h2
      cases h2
      exact ⟨0, [], rfl, by simp, by simp, by simp, by omega⟩
    · rw [if_neg h0] at h2
      cases h2
      have hb := accepted_bounds (mkCall w.out w.calls (w.buf.take (lastLineEnd w.buf)))
      have hlen : (mkCall w.out w.calls (w.buf.take (lastLineEnd w.buf))).data.length
          = lastLineEnd w.buf := by
        have := lastLineEnd_le w.buf
        simp only [mkCall, List.length_take]
        omega
      rw [hlen] at hb
      refine ⟨(accepted (mkCall w.out w.calls (w.buf.take (lastLineEnd w.buf)))).toNat,
        [mkCall w.out w.calls (w.buf.take (lastLineEnd w.buf))], ?_, rfl, ?_, ?_, ?_⟩
      · simp only
        omega
      · simp only [List.map_cons, List.map_nil, List.sum_cons, List.sum_nil, add_zero]
        omega
      · simp only [List.map_cons, List.map_nil, List.flatten_cons, List.flatten_nil,
          List.append_nil, acceptedBytes]
        show List.take _ (List.take _ w.buf) = _
        rw [List.take_take]
        congr 1
        omega
      · omega
  · rw [Flush_perline fuel w hmode, flushLines_eq] at h
    cases hl : flushLinesLoop w.out w.buf fuel ((0 : Nat) : Int)
        (IndexByte (sliceFrom w.buf ((0 : Nat) : Int)) NL) w.calls with
    | none =>
      rw [hl] at h
      cases h
    | some res =>
      rw [hl] at h
      simp only [Option.map_some', Option.some.injEq] at h
      obtain ⟨k, new, h1, h2, h3, h4, h5, -, -, -⟩ :=
        flushLinesLoop_trace w.out w.buf fuel 0 w.calls res hl
      simp only [Nat.zero_add, List.drop_zero] at h1 h4 h5
      refine ⟨k, new, ?_, ?_, h3, h4, h5⟩
      · rw [← h, h1]
      · rw [← h, h1, h2]
        simp

/-- C7 (no loss, no redelivery): in either mode, for every buffer and every sink, when `Flush`
returns the count `n`, and likewise for the count `n` that `FlushAll` returns, `n` is not
negative, the buffer afterwards is the buffer before without its first `n` bytes, and the
accepted parts of the slices offered to the sink (the first `min(reported, offered)` bytes of
each), concatenated in call order, are exactly those first `n` bytes. -/
theorem no_loss_no_redelivery {ε : Type} (w : LineWriter ε) :
    (∀ fuel r, Flush fuel w = some r →
      ∃ new, r.2.calls = w.calls ++ new ∧ 0 ≤ r.1.1
        ∧ r.2.buf = w.buf.drop r.1.1.toNat
        ∧ (new.map acceptedBytes).flatten = w.buf.take r.1.1.toNat)
    ∧ (∃ new, (FlushAll w).2.calls = w.calls ++ new ∧ 0 ≤ (FlushAll w).1.1
        ∧ (FlushAll w).2.buf = w.buf.drop (FlushAll w).1.1.toNat
        ∧ (new.map acceptedBytes).flatten = w.buf.take (FlushAll w).1.1.toNat) := by
  constructor
  · intro fuel r h
    obtain ⟨k, new, h1, h2, -, h4, -⟩ := Flush_trace fuel w r h
    refine ⟨new, by rw [h2], by omega, ?_, ?_⟩
    · rw [h2, h1]; simp
    · rw [h4, h1]; simp
  · rw [FlushAll_eq]
    by_cases hb : w.buf = []
    · rw [if_pos hb]
      exact ⟨[], by simp, by simp, by simp, by simp [hb]⟩
    · rw [if_neg hb]
      have hacc := accepted_bounds (mkCall w.out w.calls w.buf)
      exact ⟨[mkCall w.out w.calls w.buf], rfl, hacc.1, rfl, by simp [acceptedBytes, mkCall]⟩

/-- Witness of C7: per-line `Flush` of `"bar\nbaz"` over a sink that accepts two bytes at a
time; the line goes out as `"ba"` then `"r\n"`, the count is 4 and `"baz"` stays. -/
theorem no_loss_no_redelivery_witness :
    (Flush 2 perLineTwoBytes).map (fun r => (r.1, r.2.buf, r.2.calls.map Call.data))
      = some ((4, none), [98, 97, 122], [[98, 97, 114, 10], [114, 10]])
    ∧ ∃ r, Flush 2 perLineTwoBytes = some r ∧
      ∃ new, r.2.calls = perLineTwoBytes.calls ++ new ∧ 0 ≤ r.1.1
        ∧ r.2.buf = perLineTwoBytes.buf.drop r.1.1.toNat
        ∧ (new.map acceptedBytes).flatten = perLineTwoBytes.buf.take r.1.1.toNat := by
  have h : ∃ r, Flush 2 perLineTwoBytes = some r := ⟨_, rfl⟩
  obtain ⟨r, hr⟩ := h
  exact ⟨by decide, r, hr, (no_loss_no_redelivery perLineTwoBytes).1 2 r hr⟩

/-- Every returning per-line flush: as `Flush_trace`, and moreover a nil error means that no
delimiter is left, a call that reported an error is the last call and its error is the one
returned, and an error returned is the error of the last call. -/
theorem flushLines_trace {ε : Type} (fuel : Nat) (w : LineWriter ε) (r : Ret ε)
    (h : flushLines fuel w = some r) :
    ∃ (k : Nat) (new : List (Call ε)),
      r.1.1 = (k : Int)
      ∧ r.2 = { w with buf := w.buf.drop k, calls := w.calls ++ new }
      ∧ (new.map accepted).sum = (k : Int)
      ∧ (new.map acceptedBytes).flatten = w.buf.take k
      ∧ k ≤ lastLineEnd w.buf
      ∧ (r.1.2 = none → NL ∉ w.buf.drop k)
      ∧ (∀ p c q, new = p ++ c :: q → c.err ≠ none → q = [] ∧ r.1.2 = c.err)
      ∧ (r.1.2 ≠ none → ∃ p c, new = p ++ [c] ∧ c.err = r.1.2) := by
  rw [flushLines_eq] at h
  cases hl : flushLinesLoop w.out w.buf fuel ((0 : Nat) : Int)
      (IndexByte (sliceFrom w.buf ((0 : Nat) : Int)) NL) w.calls with
  | none =>
    rw [hl] at h
    cases h
  | some res =>
    rw [hl] at h
    simp only [Option.map_some', Option.some.injEq] at h
    obtain ⟨k, new, h1, h2, h3, h4, h5, h6, h7, h8⟩ :=
      flushLinesLoop_trace w.out w.buf fuel 0 w.calls res hl
    simp only [Nat.zero_add, List.drop_zero] at h1 h4 h5 h6
    have hr : r.1.2 = res.2.1 := by rw [← h]
    refine ⟨k, new, ?_, ?_, h3, h4, h5, ?_, ?_, ?_⟩
    · rw [← h, h1]
    · rw [← h, h1, h2]
      simp
    · rw [hr]; exact h6
    · rw [hr]; exact h7
    · rw [hr]; exact h8

/-! ### A call that accepts nothing and reports no error -/

/-- C5, counterexample: per-line `Flush` of `"bar\nbaz"` over a sink whose first call reports
`(0, nil)`.  `Flush` has not returned after that call; it offers `"bar\n"` a second time and
returns `(4, nil)` with `"baz"` left, not `(0, nil)` after one call with the buffer unchanged. -/
theorem zero_accept_stops_counterexample :
    (Flush 1 perLineStallOnce).isNone = true
    ∧ (Flush 2 perLineStallOnce).map
        (fun r => (r.1, r.2.buf, r.2.calls.map (fun c => (c.data, c.n, c.err))))
      = some ((4, none), [98, 97, 122],
          [([98, 97, 114, 10], 0, none), ([98, 97, 114, 10], 4, none)]) := by
  constructor
  · decide
  · rfl

/-- C5, amended: in per-line mode a sink call that reports 0 bytes accepted and no error
consumes nothing and does not stop `Flush`: the loop goes on from the same offset, so the next
sink call is offered the same line again.  For the first call of a `Flush` this reads: the
`Flush` continues as the `Flush` of the unchanged buffer after that call. -/
theorem zero_accept_is_retried {ε : Type} (w : LineWriter ε) :
    (∀ (fuel t : Nat) (calls : List (Call ε)) (pre post : List Byte),
      w.buf.drop t = pre ++ NL :: post → NL ∉ pre → w.out calls (pre ++ [NL]) = (0, none) →
      flushLinesLoop w.out w.buf (fuel + 1) (t : Int) (IndexByte (sliceFrom w.buf (t : Int)) NL)
          calls
        = flushLinesLoop w.out w.buf fuel (t : Int) (IndexByte (sliceFrom w.buf (t : Int)) NL)
          (calls ++ [{ data := pre ++ [NL], n := 0, err := none }]))
    ∧ (w.multiline = false → ∀ (fuel : Nat) (pre post : List Byte),
      w.buf = pre ++ NL :: post → NL ∉ pre → w.out w.calls (pre ++ [NL]) = (0, none) →
      Flush (fuel + 1) w
        = Flush fuel { w with calls := w.calls ++ [{ data := pre ++ [NL], n := 0, err := none }] })
    := by
  have key : ∀ (fuel t : Nat) (calls : List (Call ε)) (pre post : List Byte),
      w.buf.drop t = pre ++ NL :: post → NL ∉ pre → w.out calls (pre ++ [NL]) = (0, none) →
      flushLinesLoop w.out w.buf (fuel + 1) (t : Int) (IndexByte (sliceFrom w.buf (t : Int)) NL)
          calls
        = flushLinesLoop w.out w.buf fuel (t : Int) (IndexByte (sliceFrom w.buf (t : Int)) NL)
          (calls ++ [{ data := pre ++ [NL], n := 0, err := none }]) := by
    intro fuel t calls pre post hd hp h0
    have ha : accepted (mkCall w.out calls (pre ++ [NL])) = 0 := by
      rw [accepted_mkCall, h0]
      simp
    have hc : mkCall w.out calls (pre ++ [NL]) = { data := pre ++ [NL], n := 0, err := none } := by
      simp [mkCall, h0]
    rw [flushLinesLoop_step w.out w.buf pre post fuel t calls hd hp, h0, ha, hc]
    simp
  refine ⟨key, ?_⟩
  intro hmode fuel pre post hb hp h0
  have hk := key fuel 0 w.calls pre post (by simpa using hb) hp h0
  have hmode2 : ({ w with calls := w.calls ++ [{ data := pre ++ [NL], n := 0, err := none }] }
      : LineWriter ε).multiline = false := hmode
  rw [Flush_perline _ w hmode, Flush_perline _ _ hmode2, flushLines_eq, flushLines_eq, hk]

/-- Witness of C5 amended on `"bar\nbaz"` over the sink `stallOnce`. -/
theorem zero_accept_is_retried_witness :
    (perLineStallOnce.multiline = false
      ∧ perLineStallOnce.buf = [98, 97, 114] ++ NL :: [98, 97, 122]
      ∧ NL ∉ ([98, 97, 114] : List Byte)
      ∧ perLineStallOnce.out perLineStallOnce.calls ([98, 97, 114] ++ [NL]) = (0, none))
    ∧ Flush (1 + 1) perLineStallOnce
        = Flush 1 { perLineStallOnce with
            calls := perLineStallOnce.calls
              ++ [{ data := [98, 97, 114] ++ [NL], n := 0, err := none }] } :=
  ⟨⟨rfl, rfl, by decide, rfl⟩,
    (zero_accept_is_retried perLineStallOnce).2 rfl 1 [98, 97, 114] [98, 97, 122] rfl
      (by decide) rfl⟩

/-- Over a sink that reports `(0, nil)` on every call, per-line `Flush` of a buffer that holds a
delimiter does not return, whatever the fuel. -/
theorem flushLines_stalls {ε : Type} (w : LineWriter ε) (hm : NL ∈ w.buf)
    (hsink : ∀ h c, w.out h c = (0, none)) : ∀ fuel, flushLines fuel w = none := by
  obtain ⟨pre, post, hb, hp⟩ := exists_first _ NL hm
  have hb0 : w.buf.drop 0 = pre ++ NL :: post := by simpa using hb
  have hne : IndexByte (sliceFrom w.buf ((0 : Nat) : Int)) NL ≠ -1 := by
    rw [sliceFrom_cast, hb0, IndexByte_first _ _ _ hp]
    omega
  have key : ∀ (fuel : Nat) (calls : List (Call ε)),
      flushLinesLoop w.out w.buf fuel ((0 : Nat) : Int)
        (IndexByte (sliceFrom w.buf ((0 : Nat) : Int)) NL) calls = none := by
    intro fuel
    induction fuel with
    | zero =>
      intro calls
      rw [flushLinesLoop, if_neg hne]
    | succ fuel ih =>
      intro calls
      have ha : accepted (mkCall w.out calls (pre ++ [NL])) = 0 := by
        rw [accepted_mkCall, hsink]
        simp
      rw [flushLinesLoop_step w.out w.buf pre post fuel 0 calls hb0 hp, hsink, ha]
      simp only [Int.toNat_zero, Nat.add_zero]
      exact ih _
  intro fuel
  rw [flushLines_eq, key]
  rfl

/-! ### Errors in per-line mode -/

/-- C6: in per-line mode, for every buffer and every sink.  First, for every returning `Flush`:
a sink call that reported a non-nil error (with any count) is the last call made, and its error
is the one returned; the count `t` returned is the sum of the clamped accepted counts of the
calls made, and exactly the first `t` bytes are removed, so that every line beyond offset `t`
stays buffered.  Second, the loop returns as soon as a call reports an error: from any loop
state `(t, calls)` with a complete line `pre ++ [NL]` at offset `t`, when the sink reports
`(nw, e)` for it the loop returns the offset `t` plus the clamped count with the error `e`,
having made that call and no other. -/
theorem perline_error_stops {ε : Type} (w : LineWriter ε) (hmode : w.multiline = false) :
    (∀ fuel r, Flush fuel w = some r →
      ∃ new, r.2.calls = w.calls ++ new
        ∧ r.1.1 = (new.map accepted).sum ∧ 0 ≤ r.1.1
        ∧ r.2.buf = w.buf.drop r.1.1.toNat
        ∧ (∀ p c q, new = p ++ c :: q → c.err ≠ none → q = [] ∧ r.1.2 = c.err))
    ∧ (∀ (fuel t : Nat) (calls : List (Call ε)) (pre post : List Byte) (nw : Int) (e : ε),
      w.buf.drop t = pre ++ NL :: post → NL ∉ pre → w.out calls (pre ++ [NL]) = (nw, some e) →
      flushLinesLoop w.out w.buf (fuel + 1) (t : Int) (IndexByte (sliceFrom w.buf (t : Int)) NL)
          calls
        = some ((t : Int) + accepted { data := pre ++ [NL], n := nw, err := some e }, some e,
            calls ++ [{ data := pre ++ [NL], n := nw, err := some e }])) := by
  constructor
  · intro fuel r h
    rw [Flush_perline fuel w hmode] at h
    obtain ⟨k, new, h1, h2, h3, -, -, -, h7, -⟩ := flushLines_trace fuel w r h
    refine ⟨new, by rw [h2], by rw [h1, h3], by omega, ?_, h7⟩
    rw [h2, h1]
    simp
  · intro fuel t calls pre post nw e hd hp hs
    have hc : mkCall w.out calls (pre ++ [NL])
        = { data := pre ++ [NL], n := nw, err := some e } := by
      simp [mkCall, hs]
    have hb := accepted_bounds (mkCall w.out calls (pre ++ [NL]))
    rw [flushLinesLoop_step w.out w.buf pre post fuel t calls hd hp, hs]
    simp only
    rw [← hc]
    congr 2
    push_cast
    omega

/-- Witness of C6 on `"foobar\nbaz\n"` over a sink that accepts the first line and reports
`(2, error of writer)` for the second: `Flush` returns `(9, error of writer)` and `"z\n"` stays
buffered. -/
theorem perline_error_stops_witness :
    perLineFailSecond.multiline = false
    ∧ (Flush 2 perLineFailSecond).map (fun r => (r.1, r.2.buf))
        = some ((9, some errWriter), [122, 10])
    ∧ (∃ r, Flush 2 perLineFailSecond = some r ∧
      ∃ new, r.2.calls = perLineFailSecond.calls ++ new
        ∧ r.1.1 = (new.map accepted).sum ∧ 0 ≤ r.1.1
        ∧ r.2.buf = perLineFailSecond.buf.drop r.1.1.toNat
        ∧ (∀ p c q, new = p ++ c :: q → c.err ≠ none → q = [] ∧ r.1.2 = c.err))
    ∧ (perLineFailSecond.buf.drop 7 = [98, 97, 122] ++ NL :: []
      ∧ NL ∉ ([98, 97, 122] : List Byte)
      ∧ perLineFailSecond.out [{ data := [102, 111, 111, 98, 97, 114, 10], n := 7, err := none }]
          ([98, 97, 122] ++ [NL]) = (2, some errWriter))
    ∧ flushLinesLoop perLineFailSecond.out perLineFailSecond.buf (0 + 1) ((7 : Nat) : Int)
          (IndexByte (sliceFrom perLineFailSecond.buf ((7 : Nat) : Int)) NL)
          [{ data := [102, 111, 111, 98, 97, 114, 10], n := 7, err := none }]
        = some (((7 : Nat) : Int)
              + accepted { data := [98, 97, 122] ++ [NL], n := 2, err := some errWriter },
            some errWriter,
            [{ data := [102, 111, 111, 98, 97, 114, 10], n := 7, err := none }]
              ++ [{ data := [98, 97, 122] ++ [NL], n := 2, err := some errWriter }]) := by
  have h : ∃ r, Flush 2 perLineFailSecond = some r := ⟨_, rfl⟩
  obtain ⟨r, hr⟩ := h
  exact ⟨rfl, by decide, ⟨r, hr, (perline_error_stops perLineFailSecond rfl).1 2 r hr⟩,
    ⟨rfl, by decide, rfl⟩,
    (perline_error_stops perLineFailSecond rfl).2 0 7 _ [98, 97, 122] [] 2 errWriter rfl
      (by decide) rfl⟩

/-! ### What a nil error guarantees -/

/-- C8, counterexample: batched `Flush` of `"qux\nquux\n"` over a sink that reports `(4, nil)`
returns `(4, nil)` and leaves `"quux\n"`, a complete line, in the buffer. -/
theorem nil_error_no_line_left_counterexample :
    (Flush 2 (constSinkWriter true 4 none)).map (fun r => (r.1, r.2.buf))
      = some ((4, none), [113, 117, 117, 120, 10])
    ∧ ∃ r, Flush 2 (constSinkWriter true 4 none) = some r ∧ r.1.2 = none ∧ NL ∈ r.2.buf := by
  refine ⟨by decide, ?_⟩
  have h := flushMultiline_eq 2 (constSinkWriter true 4 none) (by decide)
  rw [if_neg (by decide)] at h
  exact ⟨_, h, rfl, by decide⟩

/-- C8, amended: if `Flush` returns with a nil error then, in per-line mode, the buffer
afterwards contains no delimiter; in batched mode the same holds provided the sink call made
by that `Flush` (if any) reported at least the number of bytes it was offered. -/
theorem nil_error_no_line_left {ε : Type} (fuel : Nat) (w : LineWriter ε) (r : Ret ε)
    (h : Flush fuel w = some r) (hnil : r.1.2 = none)
    (hfull : w.multiline = true →
      ∀ new, r.2.calls = w.calls ++ new → ∀ c ∈ new, (c.data.length : Int) ≤ c.n) :
    NL ∉ r.2.buf := by
  rcases Bool.eq_false_or_eq_true w.multiline with hmode | hmode
  · rw [Flush_batched fuel w hmode] at h
    have h2 := flushMultiline_some fuel w r h
    rw [flushMultiline_eq _ w (le_refl _)] at h2
    by_cases h0 : lastLineEnd w.buf = 0
    · rw [if_pos h0] at h2
      cases h2
      intro hm
      have := (lastLineEnd_pos_iff w.buf).mpr hm
      omega
    · rw [if_neg h0] at h2
      cases h2
      have hle := lastLineEnd_le w.buf
      have hn := hfull hmode [mkCall w.out w.calls (w.buf.take (lastLineEnd w.buf))] rfl _
        (List.mem_singleton.mpr rfl)
      have hacc : accepted (mkCall w.out w.calls (w.buf.take (lastLineEnd w.buf)))
          = (lastLineEnd w.buf : Int) := by
        simp only [mkCall, List.length_take] at hn
        rw [accepted_mkCall]
        simp only [List.length_take]
        split_ifs <;> omega
      simp only [hacc, Int.toNat_ofNat]
      exact not_mem_drop_lastLineEnd w.buf
  · rw [Flush_perline fuel w hmode] at h
    obtain ⟨k, new, -, h2, -, -, -, h6, -, -⟩ := flushLines_trace fuel w r h
    rw [h2]
    exact h6 hnil

/-- Witness of C8 amended: batched `Flush` of `"bar\nbaz"` over a sink that accepts everything
makes one call reporting the 4 bytes offered, returns a nil error and leaves `"baz"`. -/
theorem nil_error_no_line_left_witness :
    ∃ r, Flush 1 batchedAccepting = some r ∧ r.1.2 = none
      ∧ (batchedAccepting.multiline = true →
          ∀ new, r.2.calls = batchedAccepting.calls ++ new →
            ∀ c ∈ new, (c.data.length : Int) ≤ c.n)
      ∧ NL ∉ r.2.buf := by
  have h : ∃ r, Flush 1 batchedAccepting = some r ∧ r.1.2 = none
      ∧ r.2.calls = [{ data := [98, 97, 114, 10], n := 4, err := none }] := ⟨_, rfl, rfl, rfl⟩
  obtain ⟨r, h1, h2, h3⟩ := h
  have hfull : batchedAccepting.multiline = true →
      ∀ new, r.2.calls = batchedAccepting.calls ++ new →
        ∀ c ∈ new, (c.data.length : Int) ≤ c.n := by
    intro _ new hnew c hc
    have hn : new = [{ data := [98, 97, 114, 10], n := 4, err := none }] := by
      rw [h3] at hnew
      exact hnew.symm
    rw [hn, List.mem_singleton] at hc
    rw [hc]
    decide
  exact ⟨r, h1, h2, hfull, nil_error_no_line_left 1 batchedAccepting r h1 h2 hfull⟩

/-! ### Write -/

/-- C9: for every input, mode, prior buffer and sink, `Write(data)` returns the count
`len(data)` together with exactly the error that `Flush` returns on the buffer
`prior ++ data`, and leaves the state that this `Flush` leaves (and returns just when that
`Flush` returns).  The data is appended whatever the flush reports: the buffer afterwards is
`prior ++ data` without the `k` bytes the flush consumed, all of them within the complete
lines. -/
theorem write_len_and_flush_error {ε : Type} (fuel : Nat) (w : LineWriter ε) (data : List Byte) :
    Write fuel w data
      = (Flush fuel { w with buf := w.buf ++ data }).map
          (fun r => (((data.length : Int), r.1.2), r.2))
    ∧ (∀ r, Write fuel w data = some r →
        ∃ k, k ≤ lastLineEnd (w.buf ++ data) ∧ r.2.buf = (w.buf ++ data).drop k) := by
  have h1 : Write fuel w data
      = (Flush fuel { w with buf := w.buf ++ data }).map
          (fun r => (((data.length : Int), r.1.2), r.2)) := by
    unfold Write bufWrite
    simp only
    cases Flush fuel { w with buf := w.buf ++ data } <;> rfl
  refine ⟨h1, ?_⟩
  intro r hr
  rw [h1] at hr
  cases hF : Flush fuel { w with buf := w.buf ++ data } with
  | none =>
    rw [hF] at hr
    cases hr
  | some r2 =>
    rw [hF] at hr
    simp only [Option.map_some', Option.some.injEq] at hr
    obtain ⟨k, new, -, h2, -, -, h5⟩ := Flush_trace fuel _ r2 hF
    refine ⟨k, h5, ?_⟩
    rw [← hr, h2]

/-- Witness of C9 on `TestLineWriter_Write`: `Write("qux\n")` on the buffer `"baz"` over a sink
reporting `(0, error of writer)` returns `(4, error of writer)` and leaves `"bazqux\n"`. -/
theorem write_len_and_flush_error_witness :
    (Write 1 bazZeroErr qux).map (fun r => (r.1, r.2.buf))
      = some ((4, some errWriter), [98, 97, 122, 113, 117, 120, 10])
    ∧ ∃ r, Write 1 bazZeroErr qux = some r ∧
        ∃ k, k ≤ lastLineEnd (bazZeroErr.buf ++ qux) ∧ r.2.buf = (bazZeroErr.buf ++ qux).drop k := by
  have h : ∃ r, Write 1 bazZeroErr qux = some r := ⟨_, rfl⟩
  obtain ⟨r, hr⟩ := h
  exact ⟨by decide, r, hr, (write_len_and_flush_error 1 bazZeroErr qux).2 r hr⟩

/-! ### Nothing to flush -/

/-- C11: `FlushAll` on an empty buffer returns `(0, nil)` and leaves the writer as it was: no
sink call is made and the buffer stays empty, in either mode and over any sink. -/
theorem flushAll_empty {ε : Type} (w : LineWriter ε) (h : w.buf = []) :
    FlushAll w = ((0, none), w) ∧ (FlushAll w).2.calls = w.calls ∧ (FlushAll w).2.buf = [] := by
  have h1 : FlushAll w = ((0, none), w) := by rw [FlushAll_eq, if_pos h]
  rw [h1]
  exact ⟨rfl, rfl, h⟩

/-- Witness of C11 on `TestLineWriter_FlushAll`: a writer just built by `New`. -/
theorem flushAll_empty_witness :
    (New false (acceptAll : Writer String)).buf = []
    ∧ FlushAll (New false (acceptAll : Writer String))
        = ((0, none), New false (acceptAll : Writer String))
    ∧ (FlushAll (New false (acceptAll : Writer String))).2.calls
        = (New false (acceptAll : Writer String)).calls
    ∧ (FlushAll (New false (acceptAll : Writer String))).2.buf = [] :=
  ⟨rfl, flushAll_empty (New false (acceptAll : Writer String)) rfl⟩

/-- A buffer without a delimiter: `Flush` returns `(0, nil)` and leaves the writer as it was,
whatever the mode, the sink and the fuel. -/
theorem Flush_no_delimiter {ε : Type} (w : LineWriter ε) (h : NL ∉ w.buf) (fuel : Nat) :
    Flush fuel w = some ((0, none), w) := by
  rcases Bool.eq_false_or_eq_true w.multiline with hmode | hmode
  · rw [Flush_batched fuel w hmode,
      flushMultiline_eq fuel w (by rw [List.count_eq_zero_of_not_mem h]; omega),
      if_pos (lastLineEnd_of_not_mem _ h)]
  · rw [Flush_perline fuel w hmode, flushLines_eq,
      flushLinesLoop_done w.out w.buf fuel 0 w.calls (by simpa using h)]
    simp

/-- C14 (idempotence): in either mode and over any sink, when a `Flush` has returned and left no
delimiter in the buffer, a `Flush` that follows at once returns `(0, nil)` and leaves the writer
as it was: no sink call is made and the buffer is unchanged. -/
theorem flush_twice {ε : Type} (fuel : Nat) (w : LineWriter ε) (r : Ret ε)
    (h : Flush fuel w = some r) (hdrained : NL ∉ r.2.buf) (fuel2 : Nat) :
    Flush fuel2 r.2 = some ((0, none), r.2) := by
  have _ := h
  exact Flush_no_delimiter r.2 hdrained fuel2

/-- Witness of C14: per-line `Flush` of `"foobar\nbaz\n"` over a sink that accepts everything,
followed by a second `Flush`. -/
theorem flush_twice_witness :
    ∃ r, Flush 2 perLineAccepting = some r ∧ NL ∉ r.2.buf
      ∧ Flush 0 r.2 = some ((0, none), r.2) := by
  have h : ∃ r, Flush 2 perLineAccepting = some r ∧ r.2.buf = [] := ⟨_, rfl, rfl⟩
  obtain ⟨r, h1, h2⟩ := h
  have h3 : NL ∉ r.2.buf := by rw [h2]; simp
  exact ⟨r, h1, h3, flush_twice 2 perLineAccepting r h1 h3 0⟩

theorem writeEach_no_delimiter {ε : Type} (fuel : Nat) :
    ∀ (inputs : List (List Byte)) (w : LineWriter ε), NL ∉ w.buf → (∀ d ∈ inputs, NL ∉ d) →
      writeEach fuel w inputs
        = some (inputs.map (fun d => ((d.length : Int), none)),
            { w with buf := w.buf ++ inputs.flatten }) := by
  intro inputs
  induction inputs with
  | nil =>
    intro w _ _
    simp [writeEach]
  | cons d ds ih =>
    intro w hw hd
    have hd1 : NL ∉ d := hd d (List.mem_cons_self _ _)
    have hds : ∀ x ∈ ds, NL ∉ x := fun x hx => hd x (List.mem_cons_of_mem _ hx)
    have hbuf : NL ∉ w.buf ++ d := by
      intro hm
      rcases List.mem_append.mp hm with e | e
      · exact hw e
      · exact hd1 e
    have hW : Write fuel w d = some (((d.length : Int), none), { w with buf := w.buf ++ d }) := by
      unfold Write bufWrite
      simp only
      rw [Flush_no_delimiter { w with buf := w.buf ++ d } hbuf fuel]
    rw [writeEach, hW]
    simp only
    rw [ih { w with buf := w.buf ++ d } hbuf hds]
    simp

/-- C13: starting from a writer just built by `New`, in either mode and over any sink, after any
sequence of `Write` calls whose inputs contain no delimiter every call has returned
`(len(input), nil)`, `Len` is the sum of the input lengths (the buffer is the concatenation of
the inputs), and the sink has never been called. -/
theorem writes_without_delimiter {ε : Type} (multiline : Bool) (out : Writer ε) (fuel : Nat)
    (inputs : List (List Byte)) (h : ∀ d ∈ inputs, NL ∉ d) :
    ∃ w, writeEach fuel (New multiline out) inputs
        = some (inputs.map (fun d => ((d.length : Int), none)), w)
      ∧ Len w = (((inputs.map List.length).sum : Nat) : Int)
      ∧ w.buf = inputs.flatten
      ∧ w.calls = [] := by
  have h1 := writeEach_no_delimiter fuel inputs (New multiline out) (by simp [New]) h
  refine ⟨_, h1, ?_, ?_, rfl⟩
  · simp [Len, New, List.length_flatten]
  · simp [New]

/-- Witness of C13 on `TestLineWriter_Write`: the inputs `"foo"` and `"baz"`. -/
theorem writes_without_delimiter_witness :
    (∀ d ∈ [foo, baz], NL ∉ d)
    ∧ ∃ w, writeEach 0 (New false (acceptAll : Writer String)) [foo, baz]
        = some ([foo, baz].map (fun d => ((d.length : Int), none)), w)
      ∧ Len w = ((([foo, baz].map List.length).sum : Nat) : Int)
      ∧ w.buf = [foo, baz].flatten
      ∧ w.calls = [] :=
  ⟨by decide, writes_without_delimiter false acceptAll 0 [foo, baz] (by decide)⟩

/-! ### Write of a single line -/

theorem Write_eq {ε : Type} (fuel : Nat) (w : LineWriter ε) (data : List Byte) :
    Write fuel w data
      = (Flush fuel { w with buf := w.buf ++ data }).map
          (fun r => (((data.length : Int), r.1.2), r.2)) := by
  unfold Write bufWrite
  simp only
  cases Flush fuel { w with buf := w.buf ++ data } <;> rfl

/-- `Flush` over a sink that accepts everything, in either mode, on a buffer with exactly one
delimiter. -/
theorem Flush_one_line {ε : Type} (fuel : Nat) (w : LineWriter ε) (pre rest : List Byte)
    (hb : w.buf = pre ++ NL :: rest) (hpre : NL ∉ pre) (hrest : NL ∉ rest)
    (hacc : ∀ h c, w.out h c = ((c.length : Int), none)) (hfuel : 0 < fuel) :
    Flush fuel w = some ((((pre.length + 1 : Nat) : Int), none),
      { w with
        buf := rest,
        calls := w.calls ++ [{ data := pre ++ [NL], n := ((pre.length + 1 : Nat) : Int),
                               err := none }] }) := by
  have hcount : w.buf.count NL ≤ fuel := by
    rw [hb, count_append_cons pre rest hpre, List.count_eq_zero_of_not_mem hrest]
    omega
  have hl : lastLineEnd w.buf = pre.length + 1 := by rw [hb, lastLineEnd_last pre rest hrest]
  have hd : w.buf.drop (pre.length + 1) = rest := by rw [hb, drop_through]
  rcases Bool.eq_false_or_eq_true w.multiline with hmode | hmode
  · have h0 : ¬ lastLineEnd w.buf = 0 := by omega
    have ht : w.buf.take (pre.length + 1) = pre ++ [NL] := by
      have e : pre ++ NL :: rest = (pre ++ [NL]) ++ rest := by simp
      have e2 : pre.length + 1 = (pre ++ [NL]).length := by simp
      rw [hb, e, e2, List.take_left]
    have hc : mkCall w.out w.calls (pre ++ [NL])
        = { data := pre ++ [NL], n := ((pre.length + 1 : Nat) : Int), err := none } := by
      rw [mkCall_acceptAll w.out hacc]
      simp
    have ha : accepted (mkCall w.out w.calls (pre ++ [NL])) = ((pre.length + 1 : Nat) : Int) := by
      rw [hc]
      simp [accepted]
    rw [Flush_batched fuel w hmode, flushMultiline_eq fuel w hcount, if_neg h0, hl, ht, ha, hc]
    simp only [Int.toNat_ofNat, hd]
  · rw [Flush_perline fuel w hmode, flushLines_acceptAll w fuel hacc hcount, hl, hd, hb,
      completeLines_append_cons pre rest hpre, completeLines_of_not_mem rest hrest]
    simp

/-- C12: in either mode, with a buffer that holds no delimiter, a sink that accepts all bytes
offered without error, and an input with exactly one delimiter (`a ++ [NL] ++ rest`, no
delimiter in `a` nor in `rest`): `Write` returns `(len(input), nil)` after exactly one sink
call, whose argument is the prior buffer followed by the input through the delimiter, and the
buffer afterwards is `rest`, the input bytes that follow the delimiter. -/
theorem write_one_delimiter {ε : Type} (fuel : Nat) (w : LineWriter ε) (a rest : List Byte)
    (hprior : NL ∉ w.buf) (hacc : ∀ h c, w.out h c = ((c.length : Int), none))
    (ha : NL ∉ a) (hrest : NL ∉ rest) (hfuel : 0 < fuel) :
    Write fuel w (a ++ NL :: rest) = some ((((a ++ NL :: rest).length : Int), none),
      { w with
        buf := rest,
        calls := w.calls ++ [{ data := w.buf ++ a ++ [NL],
                               n := ((w.buf ++ a ++ [NL]).length : Int), err := none }] }) := by
  have hpre : NL ∉ w.buf ++ a := by
    intro hm
    rcases List.mem_append.mp hm with e | e
    · exact hprior e
    · exact ha e
  have hF := Flush_one_line fuel { w with buf := w.buf ++ (a ++ NL :: rest) } (w.buf ++ a) rest
    (by simp) hpre hrest hacc hfuel
  rw [Write_eq, hF]
  simp
  omega

/-- Witness of C12 on `TestLineWriter_Write`: `Write("bar\nbaz")` on the buffer `"foo"`; the
sink is called once with `"foobar\n"` and `"baz"` stays buffered. -/
theorem write_one_delimiter_witness :
    (NL ∉ fooAccepting.buf ∧ (∀ h c, fooAccepting.out h c = ((c.length : Int), none))
      ∧ NL ∉ ([98, 97, 114] : List Byte) ∧ NL ∉ ([98, 97, 122] : List Byte))
    ∧ (Write 1 fooAccepting ([98, 97, 114] ++ NL :: [98, 97, 122])).map
        (fun r => (r.1, r.2.buf, r.2.calls.map Call.data))
      = some ((7, none), [98, 97, 122], [[102, 111, 111, 98, 97, 114, 10]]) := by
  refine ⟨⟨by decide, fun _ _ => rfl, by decide, by decide⟩, ?_⟩
  rw [write_one_delimiter 1 fooAccepting [98, 97, 114] [98, 97, 122] (by decide)
    (fun _ _ => rfl) (by decide) (by decide) (by decide)]
  decide

/-! ### The trailing segment -/

/-- Every slice the `flushLines` loop offers to the sink is a segment of the buffer that ends
at or before the end of the last complete line. -/
theorem flushLinesLoop_offers {ε : Type} (out : Writer ε) (b : List Byte) :
    ∀ (fuel t : Nat) (calls : List (Call ε)) (res : Int × Option ε × List (Call ε)),
      flushLinesLoop out b fuel (t : Int) (IndexByte (sliceFrom b (t : Int)) NL) calls = some res →
      t ≤ lastLineEnd b →
      ∃ new, res.2.2 = calls ++ new
        ∧ ∀ c ∈ new, ∃ i n, c.data = (b.drop i).take n ∧ i + n ≤ lastLineEnd b := by
  apply flushLinesLoop_induct out b
    (fun t calls res => t ≤ lastLineEnd b →
      ∃ new, res.2.2 = calls ++ new
        ∧ ∀ c ∈ new, ∃ i n, c.data = (b.drop i).take n ∧ i + n ≤ lastLineEnd b)
  · intro t calls _ _
    exact ⟨[], by simp, by simp⟩
  · intro t calls pre post e hd hp _ ht
    have hl := lastLineEnd_drop b t ht
    rw [hd, lastLineEnd_append_cons] at hl
    refine ⟨[mkCall out calls (pre ++ [NL])], rfl, ?_⟩
    intro c hc
    rw [List.mem_singleton] at hc
    refine ⟨t, pre.length + 1, ?_, by omega⟩
    rw [hc, hd]
    have e1 : pre ++ NL :: post = (pre ++ [NL]) ++ post := by simp
    have e2 : pre.length + 1 = (pre ++ [NL]).length := by simp
    rw [e1, e2, List.take_left]
    rfl
  · intro t calls pre post res hd hp _ ih ht
    have hl := lastLineEnd_drop b t ht
    rw [hd, lastLineEnd_append_cons] at hl
    have hb := accepted_bounds (mkCall out calls (pre ++ [NL]))
    have hlen : (mkCall out calls (pre ++ [NL])).data.length = pre.length + 1 := by
      simp [mkCall]
    rw [hlen] at hb
    obtain ⟨new2, h1, h2⟩ := ih (by omega)
    refine ⟨mkCall out calls (pre ++ [NL]) :: new2, by rw [h1]; simp, ?_⟩
    intro c hc
    rcases List.mem_cons.mp hc with e | e
    · refine ⟨t, pre.length + 1, ?_, by omega⟩
      rw [e, hd]
      have e1 : pre ++ NL :: post = (pre ++ [NL]) ++ post := by simp
      have e2 : pre.length + 1 = (pre ++ [NL]).length := by simp
      rw [e1, e2, List.take_left]
      rfl
    · exact h2 c e

theorem drop_split (b : List Byte) (k p : Nat) (h : k ≤ p) :
    b.drop k = (b.drop k).take (p - k) ++ b.drop p := by
  have e : b.drop p = (b.drop k).drop (p - k) := by
    rw [List.drop_drop]
    congr 1
    omega
  rw [e, List.take_append_drop]

/-- C15: in either mode, for every buffer and every sink, with `p` the offset just past the
last delimiter (no delimiter from `p` on, and a delimiter just before `p` when there is one at
all): every slice a returning `Flush` offers to the sink is a segment `buf[i : i+n]` with
`i + n ≤ p`, so no byte after the last delimiter is ever offered, and the trailing segment
`buf[p:]` is a suffix of the buffer after the `Flush`.  `FlushAll`, on a non-empty buffer,
offers the whole buffer, trailing segment included. -/
theorem flush_keeps_trailing_segment {ε : Type} (w : LineWriter ε) :
    (∀ fuel r, Flush fuel w = some r →
      ∃ new, r.2.calls = w.calls ++ new
        ∧ (∀ c ∈ new, ∃ i n, c.data = (w.buf.drop i).take n ∧ i + n ≤ lastLineEnd w.buf)
        ∧ ∃ kept, r.2.buf = kept ++ w.buf.drop (lastLineEnd w.buf))
    ∧ NL ∉ w.buf.drop (lastLineEnd w.buf)
    ∧ (NL ∈ w.buf → ∃ pre, w.buf.take (lastLineEnd w.buf) = pre ++ [NL])
    ∧ (w.buf ≠ [] → ∃ c, (FlushAll w).2.calls = w.calls ++ [c] ∧ c.data = w.buf) := by
  refine ⟨?_, not_mem_drop_lastLineEnd _, take_lastLineEnd_form _, ?_⟩
  · intro fuel r h
    obtain ⟨k, new0, -, hr, -, -, hk⟩ := Flush_trace fuel w r h
    have hkept : ∃ kept, r.2.buf = kept ++ w.buf.drop (lastLineEnd w.buf) := by
      refine ⟨(w.buf.drop k).take (lastLineEnd w.buf - k), ?_⟩
      rw [hr]
      exact drop_split w.buf k _ hk
    rcases Bool.eq_false_or_eq_true w.multiline with hmode | hmode
    · rw [Flush_batched fuel w hmode] at h
      have h2 := flushMultiline_some fuel w r h
      rw [flushMultiline_eq _ w (le_refl _)] at h2
      by_cases h0 : lastLineEnd w.buf = 0
      · rw [if_pos h0] at h2
        cases h2
        exact ⟨[], by simp, by simp, hkept⟩
      · rw [if_neg h0] at h2
        cases h2
        refine ⟨[mkCall w.out w.calls (w.buf.take (lastLineEnd w.buf))], rfl, ?_, hkept⟩
        intro c hc
        rw [List.mem_singleton] at hc
        exact ⟨0, lastLineEnd w.buf, by rw [hc]; rfl, by omega⟩
    · rw [Flush_perline fuel w hmode, flushLines_eq] at h
      cases hl : flushLinesLoop w.out w.buf fuel ((0 : Nat) : Int)
          (IndexByte (sliceFrom w.buf ((0 : Nat) : Int)) NL) w.calls with
      | none =>
        rw [hl] at h
        cases h
      | some res =>
        rw [hl] at h
        simp only [Option.map_some', Option.some.injEq] at h
        obtain ⟨new, h1, h2⟩ :=
          flushLinesLoop_offers w.out w.buf fuel 0 w.calls res hl (Nat.zero_le _)
        refine ⟨new, ?_, h2, hkept⟩
        rw [← h, h1]
  · intro hne
    rw [FlushAll_eq, if_neg hne]
    exact ⟨mkCall w.out w.calls w.buf, rfl, rfl⟩

/-- Witness of C15: per-line `Flush` of `"bar\nbaz"` over a sink that accepts two bytes at a
time; `"baz"` is never offered and stays buffered. -/
theorem flush_keeps_trailing_segment_witness :
    (Flush 2 perLineTwoBytes).map (fun r => (r.2.buf, r.2.calls.map Call.data))
      = some ([98, 97, 122], [[98, 97, 114, 10], [114, 10]])
    ∧ ∃ r, Flush 2 perLineTwoBytes = some r ∧
      ∃ new, r.2.calls = perLineTwoBytes.calls ++ new
        ∧ (∀ c ∈ new, ∃ i n, c.data = (perLineTwoBytes.buf.drop i).take n
            ∧ i + n ≤ lastLineEnd perLineTwoBytes.buf)
        ∧ ∃ kept, r.2.buf = kept ++ perLineTwoBytes.buf.drop (lastLineEnd perLineTwoBytes.buf) := by
  have h : ∃ r, Flush 2 perLineTwoBytes = some r := ⟨_, rfl⟩
  obtain ⟨r, hr⟩ := h
  exact ⟨by decide, r, hr, (flush_keeps_trailing_segment perLineTwoBytes).1 2 r hr⟩

/-! ### WriteString and Printf -/

theorem stringBytes_length (s : GoString) : ((stringBytes s).length : Int) = s.len := rfl

/-- C16: for every string (any sequence of bytes), mode, prior buffer and sink,
`WriteString(s)` has the result of `Write` applied to the bytes of `s` (the same returned count
and error, the same sink calls and the same buffer, and it returns just when that `Write`
returns), and `Printf(format, args)` has the result of `WriteString` applied to the formatted
string. -/
theorem writeString_as_write {ε α : Type} (fuel : Nat) (w : LineWriter ε) (s : GoString) :
    WriteString fuel w s = Write fuel w (stringBytes s)
    ∧ ∀ (sprintf : GoString → List α → GoString) (a : List α),
        Printf sprintf fuel w s a = WriteString fuel w (sprintf s a) := by
  refine ⟨?_, fun _ _ => rfl⟩
  unfold WriteString Write bufWriteString bufWrite
  simp only [stringBytes_length]

/-- `WriteString` of the three bytes `"\xff\xfe\n"`, not valid UTF-8, on the buffer `"foo"`
over a sink that accepts everything: the count returned is 3, the sink receives the six bytes
of the line and the buffer ends empty. -/
theorem writeString_not_utf8 :
    (WriteString 1 fooAccepting notUtf8).map (fun r => (r.1, r.2.buf, r.2.calls.map Call.data))
      = some ((3, none), [], [[102, 111, 111, 255, 254, 10]]) := by
  decide

/-! ### Termination of the per-line flush -/

theorem flushLinesLoop_terminates {ε : Type} (out : Writer ε) (b : List Byte)
    (hprog : ∀ h c, c ≠ [] → 0 < (out h c).1 ∨ (out h c).2 ≠ none) :
    ∀ (fuel t : Nat) (calls : List (Call ε)), lastLineEnd (b.drop t) ≤ fuel →
      ∃ res new,
        flushLinesLoop out b fuel (t : Int) (IndexByte (sliceFrom b (t : Int)) NL) calls
          = some res
        ∧ res.2.2 = calls ++ new
        ∧ new.length ≤ lastLineEnd (b.drop t)
        ∧ ∀ c ∈ new, c.err = none → 1 ≤ accepted c := by
  intro fuel
  induction fuel with
  | zero =>
    intro t calls hf
    have hm : NL ∉ b.drop t := by
      intro hm
      have := (lastLineEnd_pos_iff _).mpr hm
      omega
    exact ⟨_, [], flushLinesLoop_done out b 0 t calls hm, by simp, by simp, by simp⟩
  | succ fuel ih =>
    intro t calls hf
    by_cases hm : NL ∈ b.drop t
    · obtain ⟨pre, post, hd, hp⟩ := exists_first _ NL hm
      have hl : lastLineEnd (b.drop t) = pre.length + 1 + lastLineEnd post := by
        rw [hd, lastLineEnd_append_cons]
      have hb := accepted_bounds (mkCall out calls (pre ++ [NL]))
      have hlen : (mkCall out calls (pre ++ [NL])).data.length = pre.length + 1 := by
        simp [mkCall]
      rw [hlen] at hb
      have hone : (mkCall out calls (pre ++ [NL])).err = none →
          1 ≤ accepted (mkCall out calls (pre ++ [NL])) := by
        intro he
        have hpos : 0 < (out calls (pre ++ [NL])).1 := by
          rcases hprog calls (pre ++ [NL]) (by simp) with h1 | h1
          · exact h1
          · exact absurd he h1
        rw [accepted_mkCall, if_pos hpos]
        have : ((pre ++ [NL]).length : Int) = (pre.length : Int) + 1 := by simp
        split_ifs <;> omega
      rw [flushLinesLoop_step out b pre post fuel t calls hd hp]
      cases he : (out calls (pre ++ [NL])).2 with
      | some e =>
        refine ⟨_, [mkCall out calls (pre ++ [NL])], rfl, rfl, by simp; omega, ?_⟩
        intro c hc hn
        rw [List.mem_singleton] at hc
        rw [hc]
        exact hone (by rw [← hc]; exact hn)
      | none =>
        have h1 := hone he
        have hk : (accepted (mkCall out calls (pre ++ [NL]))).toNat ≤ lastLineEnd (b.drop t) := by
          omega
        have hdrop := lastLineEnd_drop (b.drop t) _ hk
        have hdd : b.drop (t + (accepted (mkCall out calls (pre ++ [NL]))).toNat)
            = (b.drop t).drop (accepted (mkCall out calls (pre ++ [NL]))).toNat :=
          drop_add_of_drop b _ t _ rfl
        obtain ⟨res, new2, h2, h3, h4, h5⟩ :=
          ih (t + (accepted (mkCall out calls (pre ++ [NL]))).toNat)
            (calls ++ [mkCall out calls (pre ++ [NL])]) (by rw [hdd]; omega)
        refine ⟨res, mkCall out calls (pre ++ [NL]) :: new2, h2, by rw [h3]; simp, ?_, ?_⟩
        · rw [hdd] at h4
          simp only [List.length_cons]
          omega
        · intro c hc hn
          rcases List.mem_cons.mp hc with e | e
          · rw [e]
            exact hone (by rw [← e]; exact hn)
          · exact h5 c e hn
    · exact ⟨_, [], flushLinesLoop_done out b (fuel + 1) t calls hm, by simp, by simp, by simp⟩

/-- C18: per-line `Flush` terminates when every sink call (on a non-empty slice, and `Flush`
offers no other) reports a positive count or returns an error.  With `p` the offset just past the last delimiter of the buffer (no delimiter from `p`
on, a delimiter just before `p` when there is one), `Flush` returns after at most `p` sink
calls: fuel for `p` calls is enough, every call that reported no error was credited with at
least one byte, and the count returned lies between 0 and `p`. -/
theorem perline_flush_terminates {ε : Type} (w : LineWriter ε) (fuel : Nat)
    (hmode : w.multiline = false)
    (hprog : ∀ h c, c ≠ [] → 0 < (w.out h c).1 ∨ (w.out h c).2 ≠ none)
    (hfuel : lastLineEnd w.buf ≤ fuel) :
    (∃ r new, Flush fuel w = some r
      ∧ r.2.calls = w.calls ++ new
      ∧ new.length ≤ lastLineEnd w.buf
      ∧ (∀ c ∈ new, c.err = none → 1 ≤ accepted c)
      ∧ 0 ≤ r.1.1 ∧ r.1.1 ≤ (lastLineEnd w.buf : Int))
    ∧ NL ∉ w.buf.drop (lastLineEnd w.buf)
    ∧ (NL ∈ w.buf → ∃ pre, w.buf.take (lastLineEnd w.buf) = pre ++ [NL]) := by
  refine ⟨?_, not_mem_drop_lastLineEnd _, take_lastLineEnd_form _⟩
  obtain ⟨res, new, h1, h2, h3, h4⟩ :=
    flushLinesLoop_terminates w.out w.buf hprog fuel 0 w.calls (by simpa using hfuel)
  obtain ⟨k, new0, hk1, -, -, -, hk5, -, -, -⟩ :=
    flushLinesLoop_trace w.out w.buf fuel 0 w.calls res h1
  simp only [Nat.zero_add, List.drop_zero] at hk1 hk5 h3
  refine ⟨((res.1, res.2.1), { w with buf := w.buf.drop res.1.toNat, calls := res.2.2 }), new,
    ?_, h2, h3, h4, ?_, ?_⟩
  · rw [Flush_perline fuel w hmode, flushLines_eq, h1]
    rfl
  · simp only [hk1]
    omega
  · simp only [hk1]
    omega

/-- Witness of C18: per-line `Flush` of `"bar\nbaz"` over a sink that accepts two bytes at a
time returns within 4 sink calls (it makes two). -/
theorem perline_flush_terminates_witness :
    (perLineTwoBytes.multiline = false
      ∧ (∀ h c, c ≠ [] → 0 < (perLineTwoBytes.out h c).1 ∨ (perLineTwoBytes.out h c).2 ≠ none)
      ∧ lastLineEnd perLineTwoBytes.buf ≤ 4)
    ∧ (Flush 4 perLineTwoBytes).map (fun r => (r.1, r.2.calls.length)) = some ((4, none), 2)
    ∧ ∃ r new, Flush 4 perLineTwoBytes = some r
      ∧ r.2.calls = perLineTwoBytes.calls ++ new
      ∧ new.length ≤ lastLineEnd perLineTwoBytes.buf
      ∧ (∀ c ∈ new, c.err = none → 1 ≤ accepted c)
      ∧ 0 ≤ r.1.1 ∧ r.1.1 ≤ (lastLineEnd perLineTwoBytes.buf : Int) := by
  have hprog : ∀ (h : List (Call String)) (c : List Byte), c ≠ [] →
      0 < (perLineTwoBytes.out h c).1 ∨ (perLineTwoBytes.out h c).2 ≠ none := by
    intro h c hc
    left
    have hl : 0 < c.length := List.length_pos.mpr hc
    show 0 < min 2 (c.length : Int)
    omega
  exact ⟨⟨rfl, hprog, by decide⟩, by decide,
    (perline_flush_terminates perLineTwoBytes 4 rfl hprog (by decide)).1⟩

/-! ### The two modes over a well-behaved sink -/

/-- C19: for every buffer and a sink that accepts all bytes offered without error, per-line
`Flush` and batched `Flush` return the same `(count, nil)`, leave the same buffer, and deliver
the same bytes when the arguments of their sink calls are concatenated in order; the per-line
`Flush` makes one sink call per delimiter, the batched one at most one. -/
theorem modes_agree_accept_all {ε : Type} (w : LineWriter ε) (fuel : Nat)
    (hacc : ∀ h c, w.out h c = ((c.length : Int), none))
    (hfuel : w.buf.count NL ≤ fuel) :
    ∃ r1 r2 new1 new2,
      Flush fuel { w with multiline := false } = some r1
      ∧ Flush fuel { w with multiline := true } = some r2
      ∧ r1.1 = r2.1 ∧ r1.1.2 = none
      ∧ r1.2.buf = r2.2.buf
      ∧ r1.2.calls = w.calls ++ new1 ∧ r2.2.calls = w.calls ++ new2
      ∧ (new1.map Call.data).flatten = (new2.map Call.data).flatten
      ∧ new1.length = w.buf.count NL ∧ new2.length ≤ 1 := by
  have h1 := flushLines_acceptAll { w with multiline := false } fuel hacc hfuel
  have h2 := flushMultiline_eq fuel { w with multiline := true } hfuel
  have hd1 : ((completeLines w.buf).map
      (fun l => ({ data := l, n := l.length, err := none } : Call ε))).map Call.data
      = completeLines w.buf := by
    rw [List.map_map]
    exact List.map_id _
  rw [Flush_perline fuel { w with multiline := false } rfl, h1,
    Flush_batched fuel { w with multiline := true } rfl, h2]
  simp only
  by_cases h0 : lastLineEnd w.buf = 0
  · rw [if_pos h0]
    refine ⟨_, _, _, [], rfl, rfl, by simp [h0], rfl, by simp [h0], rfl, by simp, ?_, ?_,
      by simp⟩
    · rw [hd1, completeLines_join, h0]
      simp
    · simp only [List.length_map]
      exact completeLines_length _
  · rw [if_neg h0]
    have hle := lastLineEnd_le w.buf
    have hc : mkCall w.out w.calls (w.buf.take (lastLineEnd w.buf))
        = { data := w.buf.take (lastLineEnd w.buf), n := (lastLineEnd w.buf : Int),
            err := none } := by
      rw [mkCall_acceptAll w.out hacc, List.length_take, Nat.min_eq_left hle]
    have ha : accepted (mkCall w.out w.calls (w.buf.take (lastLineEnd w.buf)))
        = (lastLineEnd w.buf : Int) := by
      rw [hc]
      unfold accepted
      simp only [List.length_take, Nat.min_eq_left hle]
      split_ifs <;> omega
    refine ⟨_, _, _, [mkCall w.out w.calls (w.buf.take (lastLineEnd w.buf))], rfl, rfl, ?_, rfl,
      ?_, rfl, rfl, ?_, ?_, by simp⟩
    · rw [ha, hc]
    · simp only [ha, Int.toNat_ofNat]
    · rw [hd1, completeLines_join, hc]
      simp
    · simp only [List.length_map]
      exact completeLines_length _

/-- Witness of C19 on `"foobar\nbaz\n"`: both modes return `(11, nil)` and empty the buffer;
per-line makes two sink calls, batched one. -/
theorem modes_agree_accept_all_witness :
    ((∀ h c, perLineAccepting.out h c = ((c.length : Int), none))
      ∧ perLineAccepting.buf.count NL ≤ 2)
    ∧ ∃ r1 r2 new1 new2,
      Flush 2 { perLineAccepting with multiline := false } = some r1
      ∧ Flush 2 { perLineAccepting with multiline := true } = some r2
      ∧ r1.1 = r2.1 ∧ r1.1.2 = none
      ∧ r1.2.buf = r2.2.buf
      ∧ r1.2.calls = perLineAccepting.calls ++ new1
      ∧ r2.2.calls = perLineAccepting.calls ++ new2
      ∧ (new1.map Call.data).flatten = (new2.map Call.data).flatten
      ∧ new1.length = perLineAccepting.buf.count NL ∧ new2.length ≤ 1 :=
  ⟨⟨fun _ _ => rfl, by decide⟩,
    modes_agree_accept_all perLineAccepting 2 (fun _ _ => rfl) (by decide)⟩

/-! ### A sink that reports a negative count -/

/-- C20: a negative count reported by the sink is treated as nothing accepted.  `FlushAll` (on
a non-empty buffer) and batched `Flush` (on a buffer with a delimiter) then remove no byte and
return the count 0 with the error of the sink; in the per-line loop such a call leaves the
consumed offset where it was (the loop returns that offset if the call reported an error and
otherwise goes on from it).  For any integers the sink reports, the count returned by
`FlushAll`, and by `Flush` when it returns, lies between 0 and the length of the buffer before
the call. -/
theorem negative_count_accepts_nothing {ε : Type} (w : LineWriter ε) :
    (∀ (k : Int) (e : Option ε), w.buf ≠ [] → w.out w.calls w.buf = (k, e) → k < 0 →
      (FlushAll w).1 = (0, e) ∧ (FlushAll w).2.buf = w.buf)
    ∧ (∀ (k : Int) (e : Option ε) (fuel : Nat), w.multiline = true → NL ∈ w.buf →
      w.buf.count NL ≤ fuel → (∀ c, w.out w.calls c = (k, e)) → k < 0 →
      ∃ r, Flush fuel w = some r ∧ r.1 = (0, e) ∧ r.2.buf = w.buf)
    ∧ (∀ (fuel t : Nat) (calls : List (Call ε)) (pre post : List Byte) (nw : Int)
        (e : Option ε),
      w.buf.drop t = pre ++ NL :: post → NL ∉ pre → w.out calls (pre ++ [NL]) = (nw, e) →
      nw < 0 →
      flushLinesLoop w.out w.buf (fuel + 1) (t : Int) (IndexByte (sliceFrom w.buf (t : Int)) NL)
          calls
        = match e with
          | some err =>
            some ((t : Int), some err, calls ++ [{ data := pre ++ [NL], n := nw, err := e }])
          | none =>
            flushLinesLoop w.out w.buf fuel (t : Int)
              (IndexByte (sliceFrom w.buf (t : Int)) NL)
              (calls ++ [{ data := pre ++ [NL], n := nw, err := e }]))
    ∧ (0 ≤ (FlushAll w).1.1 ∧ (FlushAll w).1.1 ≤ (w.buf.length : Int))
    ∧ (∀ fuel r, Flush fuel w = some r → 0 ≤ r.1.1 ∧ r.1.1 ≤ (w.buf.length : Int)) := by
  refine ⟨?_, ?_, ?_, ?_, ?_⟩
  · intro k e hne hs hk
    have ha : accepted (mkCall w.out w.calls w.buf) = 0 := by
      rw [accepted_mkCall, hs]
      simp only
      rw [if_neg (by omega)]
    rw [FlushAll_eq, if_neg hne, ha]
    simp [mkCall, hs]
  · intro k e fuel hmode hm hfuel hs hk
    have h0 : ¬ lastLineEnd w.buf = 0 := by
      have := (lastLineEnd_pos_iff w.buf).mpr hm
      omega
    have ha : accepted (mkCall w.out w.calls (w.buf.take (lastLineEnd w.buf))) = 0 := by
      rw [accepted_mkCall, hs]
      simp only
      rw [if_neg (by omega)]
    rw [Flush_batched fuel w hmode, flushMultiline_eq fuel w hfuel, if_neg h0, ha]
    exact ⟨_, rfl, by simp [mkCall, hs], by simp⟩
  · intro fuel t calls pre post nw e hd hp hs hk
    have ha : accepted (mkCall w.out calls (pre ++ [NL])) = 0 := by
      rw [accepted_mkCall, hs]
      simp only
      rw [if_neg (by omega)]
    have hc : mkCall w.out calls (pre ++ [NL]) = { data := pre ++ [NL], n := nw, err := e } := by
      simp [mkCall, hs]
    rw [flushLinesLoop_step w.out w.buf pre post fuel t calls hd hp, hs, ha, hc]
    simp only [Int.toNat_zero, Nat.add_zero]
  · rw [FlushAll_eq]
    by_cases hb : w.buf = []
    · rw [if_pos hb]
      simp
    · rw [if_neg hb]
      exact accepted_bounds (mkCall w.out w.calls w.buf)
  · intro fuel r h
    obtain ⟨k, new, h1, -, -, -, h5⟩ := Flush_trace fuel w r h
    have := lastLineEnd_le w.buf
    rw [h1]
    omega

/-- Witness of C20: `FlushAll` of `"qux\nquux\n"` over the sink reporting
`(-5, error of writer)` returns `(0, error of writer)` and keeps the nine bytes; per-line
`Flush` over a sink whose first call reports `(-1, nil)` offers `"qux\n"` again. -/
theorem negative_count_accepts_nothing_witness :
    ((constSinkWriter false (-5) (some errWriter)).buf ≠ []
      ∧ (constSinkWriter false (-5) (some errWriter)).out
          (constSinkWriter false (-5) (some errWriter)).calls
          (constSinkWriter false (-5) (some errWriter)).buf = (-5, some errWriter)
      ∧ (-5 : Int) < 0)
    ∧ ((FlushAll (constSinkWriter false (-5) (some errWriter))).1 = (0, some errWriter)
      ∧ (FlushAll (constSinkWriter false (-5) (some errWriter))).2.buf
          = (constSinkWriter false (-5) (some errWriter)).buf)
    ∧ (Flush 3 negativeOnce).map (fun r => (r.1, r.2.buf, r.2.calls.map Call.data))
        = some ((9, none), [], [[113, 117, 120, 10], [113, 117, 120, 10],
            [113, 117, 117, 120, 10]])
    ∧ (∃ r, Flush 3 negativeOnce = some r ∧ 0 ≤ r.1.1
        ∧ r.1.1 ≤ (negativeOnce.buf.length : Int)) := by
  have h : ∃ r, Flush 3 negativeOnce = some r := ⟨_, rfl⟩
  obtain ⟨r, hr⟩ := h
  exact ⟨⟨by decide, rfl, by decide⟩,
    (negative_count_accepts_nothing (constSinkWriter false (-5) (some errWriter))).1 (-5)
      (some errWriter) (by decide) rfl (by decide),
    by decide,
    ⟨r, hr, (negative_count_accepts_nothing negativeOnce).2.2.2.2 3 r hr⟩⟩

/-! ### FlushAll without the exclusive lock -/

/-- The two parts of `FlushAll`, run one after the other, are `FlushAll`. -/
theorem FlushAllRemove_FlushAllOffer {ε : Type} (w : LineWriter ε) :
    FlushAllRemove (FlushAllOffer w).1 (FlushAllOffer w).2 = FlushAll w := by
  unfold FlushAllRemove FlushAllOffer FlushAll
  by_cases h : Len w = 0
  · simp only [h, if_true]
  · simp only [h, if_false]

/-- C17, the code on a schedule that the missing lock allows.  `FlushAll` holds the mutex only
inside `Len` and `Flush` never takes it, so the `Write` of another caller can run between the
sink call of `FlushAll` and its `w.buf.Next(n)`.  On the buffer `"foo"` over a sink that accepts
everything, with `Write("bar\nbaz")` in between: the sink receives `"foo"` and then
`"foobar\n"`, `FlushAll` returns `(3, nil)`, `Write` returns `(7, nil)`, and the buffer ends
empty, so that `"foo"` is delivered twice and `"baz"` is dropped without being delivered. -/
theorem flushAll_interleaved_with_write :
    (Write 1 (FlushAllOffer fooAccepting).2 barbaz).map
        (fun rB =>
          (rB.1, rB.2.buf,
            (FlushAllRemove (FlushAllOffer fooAccepting).1 rB.2).1,
            (FlushAllRemove (FlushAllOffer fooAccepting).1 rB.2).2.buf,
            (FlushAllRemove (FlushAllOffer fooAccepting).1 rB.2).2.calls.map Call.data))
      = some ((7, none), [98, 97, 122], (3, none), [],
          [[102, 111, 111], [102, 111, 111, 98, 97, 114, 10]]) := by
  rfl

end linewriter
